import Mathlib

/-! Triangle edge walk (`tgec/src/edge_walk.c`, `tge/c_lib/src/edge_walk.c`).

What the repository compiles and what it only drafts are kept apart.

* `Tge.edge_walk` is `edge_walk` of `src/tgec/src/edge_walk.c` as compiled. Every
  line between its signature (line 46) and line 84 is a line comment, so its body
  is the single statement `return Py_BuildValue("i", 0);`: it parses no argument,
  walks no edge, touches no buffer and writes no row.
* `Tge.CLib` holds `bresenhams_line` of `src/tge/c_lib/src/edge_walk.c`, the only
  `bresenhams_line` outside comments: five assignments followed by
  `while (1) { }`.
* `Tge.Draft` transcribes the text behind the line comments of
  `src/tgec/src/edge_walk.c` (lines 5 to 44 and 47 to 82): the walk the file
  describes but does not run. Nothing in `Tge.Draft` is executed by the program;
  its results say what that text would do and are used only where a statement
  compares the program with it.

Modelling conventions.

* C `int` values are integers (`Int`). The compiled `edge_walk` computes with none
  of its arguments, so no overflow can occur in it; in `Tge.Draft` and `Tge.CLib`
  arithmetic is exact.
* `float` depths are carried as rationals (`ℚ`); the compiled code never reads them.
* `while (1)` is run with a fuel counter: `none` means the fuel ran out before a
  `break` or `return`.
-/

namespace Tge

/-- C `abs` on `int`. -/
def c_abs (a : Int) : Int := if a < 0 then -a else a

/-- One row written to the output arrays: `edge_pts[row] = (x, y)` and
`edge_zs[row] = z`. -/
structure Sample where
  row : Int
  x : Int
  y : Int
  z : ℚ
  deriving DecidableEq

/-- Grid membership, `x >= 0 && x < w && y >= 0 && y < h`: the bounds test written on
line 18 of the draft. -/
def in_grid (w h x y : Int) : Prop := x ≥ 0 ∧ x < w ∧ y ≥ 0 ∧ y < h

instance (w h x y : Int) : Decidable (in_grid w h x y) := by
  unfold in_grid; infer_instance

/-- Pixel coordinates of the samples, in emission order. -/
def coords (l : List Sample) : List (Int × Int) := l.map fun p => (p.x, p.y)

/-- First occurrences only: scanning left to right, an element is kept unless an
equal one has been kept before. -/
def keep_first (l : List (Int × Int)) : List (Int × Int) :=
  l.foldl (fun acc a => if a ∈ acc then acc else acc ++ [a]) []

/-- Cells of a list that lie inside the grid, order unchanged. -/
def clip (w h : Int) (l : List (Int × Int)) : List (Int × Int) :=
  l.filter fun p => decide (in_grid w h p.1 p.2)

/-! ## The compiled functions -/

/-- Object that a C function of the extension module hands back to Python. -/
inductive PyResult where
  | null
  | py_none
  | int (n : Int)
  deriving DecidableEq

/-- Contents of the argument tuple `args` that a caller of `edge_walk` passes: the
three vertices, their depths and the grid size. -/
structure Args where
  x0 : Int
  y0 : Int
  x1 : Int
  y1 : Int
  x2 : Int
  y2 : Int
  z0 : ℚ
  z1 : ℚ
  z2 : ℚ
  w : Int
  h : Int

/-- Everything one call of `edge_walk` does: the object returned (`null` is the
error return `NULL`), the rows written to `edge_pts` / `edge_zs`, the truncation
flag reported (`none` when no flag is reported), the number of line-stepper steps
taken, the cells stood on, and the indices at which `edge_buf` was read or
written. -/
structure Outcome where
  ret : PyResult
  out : List Sample
  truncated : Option Bool
  steps : Nat
  visited : List (Int × Int)
  accesses : List Int
  deriving DecidableEq

/-- Lines 46 to 85 of `src/tgec/src/edge_walk.c` as compiled. Lines 47 to 82 are
line comments; the one statement is line 84, `return Py_BuildValue("i", 0);`. The
argument tuple is not parsed, no `bresenhams_line` is called, no buffer is
allocated and no row is written. -/
def edge_walk (_args : Args) : Outcome :=
  { ret := PyResult.int 0
    out := []
    truncated := none
    steps := 0
    visited := []
    accesses := [] }

namespace CLib

/-- Variables of `bresenhams_line` in `src/tge/c_lib/src/edge_walk.c`: the two
endpoints and the five values assigned on lines 7 to 12. -/
structure Locals where
  x0 : Int
  y0 : Int
  x1 : Int
  y1 : Int
  dx : Int
  dy : Int
  sx : Int
  sy : Int
  err : Int
  deriving DecidableEq

/-- Lines 7 to 12: the assignments before the loop. -/
def start (x0 y0 x1 y1 : Int) : Locals :=
  { x0 := x0
    y0 := y0
    x1 := x1
    y1 := y1
    dx := c_abs (x1 - x0)
    dy := -c_abs (y1 - y0)
    sx := if x0 < x1 then 1 else -1
    sy := if y0 < y1 then 1 else -1
    err := c_abs (x1 - x0) + -c_abs (y1 - y0) }

/-- Body of the loop of lines 14 and 15, `while (1) { }`: there is nothing between
the braces, so an iteration changes no variable. -/
def body (s : Locals) : Locals := s

/-- Lines 14 and 15 on fuel. The loop has no `break` and no `return`: an iteration
can only be followed by the next one. -/
def bresenhams_loop : Nat → Locals → Option Locals
  | 0, _ => none
  | fuel + 1, s => bresenhams_loop fuel (body s)

/-- Lines 5 to 16: `bresenhams_line` of `src/tge/c_lib/src/edge_walk.c`. The result
is the state of its variables when it returns, `none` when it does not return
within the fuel. -/
def bresenhams_line (fuel : Nat) (x0 y0 : Int) (_z0 : ℚ) (x1 y1 : Int) (_z1 : ℚ) :
    Option Locals :=
  bresenhams_loop fuel (start x0 y0 x1 y1)

end CLib

/-! ## The draft behind the line comments -/

namespace Draft

/-- Memory shared by the three `bresenhams_line` calls, with the running index
`i` that each call receives and returns. `visited` is a ghost field: the cells
the loop has stood on, in order, whether or not they were emitted. -/
structure Walk where
  edge_buf : List Int
  out : List Sample
  i : Int
  visited : List (Int × Int)
  deriving DecidableEq

/-- Loop-carried locals of `bresenhams_line`. -/
structure Cursor where
  x0 : Int
  y0 : Int
  err : Int
  t : Int
  deriving DecidableEq

/-- Index expression `x0 + y0 * w` of lines 18 and 19. -/
def cell_index (w x y : Int) : Nat := (x + y * w).toNat

/-- Lines 18 to 26: the guarded mark-and-emit at the current cell. -/
def visit (z0 z1 : ℚ) (w h : Int) (c : Cursor) (s : Walk) : Walk :=
  let s := { s with visited := s.visited ++ [(c.x0, c.y0)] }
  if in_grid w h c.x0 c.y0 ∧ s.edge_buf.getD (cell_index w c.x0 c.y0) 0 = 0 then
    { s with
      edge_buf := s.edge_buf.set (cell_index w c.x0 c.y0) 1
      out := s.out ++ [⟨s.i, c.x0, c.y0, z0 + (z1 - z0) * (c.t : ℚ)⟩]
      i := s.i + 1 }
  else s

/-- Lines 32 to 41: the error-driven advance of the cursor. -/
def advance (dx dy sx sy : Int) (c : Cursor) : Cursor :=
  let e2 := 2 * c.err
  let c1 : Cursor := if e2 ≥ dy then { c with err := c.err + dy, x0 := c.x0 + sx } else c
  let c2 : Cursor := if e2 ≤ dx then { c1 with err := c1.err + dx, y0 := c1.y0 + sy } else c1
  { c2 with t := c2.t + 1 }

/-- Lines 17 to 42: the `while (1)` loop, one iteration per unit of fuel. -/
def bresenhams_loop (x1 y1 : Int) (z0 z1 : ℚ) (dx dy sx sy w h : Int) :
    Nat → Cursor → Walk → Option Walk
  | 0, _, _ => none
  | fuel + 1, c, s =>
    let s1 := visit z0 z1 w h c s
    if c.x0 = x1 ∧ c.y0 = y1 then some s1
    else bresenhams_loop x1 y1 z0 z1 dx dy sx sy w h fuel (advance dx dy sx sy c) s1

/-- Lines 5 to 44: `bresenhams_line`. The result carries the returned `i`. -/
def bresenhams_line (fuel : Nat) (x0 y0 : Int) (z0 : ℚ) (x1 y1 : Int) (z1 : ℚ)
    (s : Walk) (w h : Int) : Option Walk :=
  let dx := c_abs (x1 - x0)
  let dy := -c_abs (y1 - y0)
  let sx : Int := if x0 < x1 then 1 else -1
  let sy : Int := if y0 < y1 then 1 else -1
  let err := dx + dy
  bresenhams_loop x1 y1 z0 z1 dx dy sx sy w h fuel ⟨x0, y0, err, 0⟩ s

/-- State at line 71: `edge_buf = calloc(w * h, 1)`, nothing written, `i = 0`. -/
def fresh (w h : Int) : Walk := ⟨List.replicate (w * h).toNat 0, [], 0, []⟩

/-- Lines 47 to 82 of the draft: the body of `edge_walk` up to `free(edge_buf)`. The
draft has no `return` of its own, so the result is the memory after the three
calls. -/
def edge_walk (fuel : Nat) (x0 y0 x1 y1 x2 y2 : Int) (z0 z1 z2 : ℚ) (w h : Int) :
    Option Walk :=
  match bresenhams_line fuel x0 y0 z0 x1 y1 z1 (fresh w h) w h with
  | none => none
  | some s1 =>
    match bresenhams_line fuel x1 y1 z1 x2 y2 z2 s1 w h with
    | none => none
    | some s2 => bresenhams_line fuel x2 y2 z2 x0 y0 z0 s2 w h

/-- Cells the loop stands on when it needs `n` advances from `c`: ghost
description of the control flow of lines 17 to 42. -/
def path (dx dy sx sy : Int) : Nat → Cursor → List Cursor
  | 0, c => [c]
  | n + 1, c => c :: path dx dy sx sy n (advance dx dy sx sy c)

/-- Lines 18 to 26 applied at each cursor of a list, in order. -/
def visit_all (z0 z1 : ℚ) (w h : Int) (cs : List Cursor) (s : Walk) : Walk :=
  cs.foldl (fun s c => visit z0 z1 w h c s) s

/-- Number of advances between two integer points: `max(|dx|, |dy|)`. -/
def chebyshev (xa ya xb yb : Int) : Nat := max (xb - xa).natAbs (yb - ya).natAbs

/-- Cursors that `bresenhams_line` passes through on the edge `(xa,ya) → (xb,yb)`:
the start cursor of lines 9 to 16 followed by `chebyshev` advances. -/
def line_path (xa ya xb yb : Int) : List Cursor :=
  path (c_abs (xb - xa)) (-c_abs (yb - ya)) (if xa < xb then 1 else -1) (if ya < yb then 1 else -1)
    (chebyshev xa ya xb yb) ⟨xa, ya, c_abs (xb - xa) + -c_abs (yb - ya), 0⟩

/-- Grid cell under a cursor. -/
def Cursor.cell (c : Cursor) : Int × Int := (c.x0, c.y0)

/-- Cells that `bresenhams_line` stands on along the edge, first endpoint first. -/
def line_cells (xa ya xb yb : Int) : List (Int × Int) :=
  (line_path xa ya xb yb).map Cursor.cell

/-- Fuel that lets each of the three calls reach its `break`. -/
def walk_fuel (x0 y0 x1 y1 x2 y2 : Int) : Nat :=
  max (max (chebyshev x0 y0 x1 y1) (chebyshev x1 y1 x2 y2)) (chebyshev x2 y2 x0 y0)

/-- Cells of the three edges in walking order: `v0 → v1`, `v1 → v2`, `v2 → v0`. -/
def walk_cells (x0 y0 x1 y1 x2 y2 : Int) : List (Int × Int) :=
  line_cells x0 y0 x1 y1 ++ line_cells x1 y1 x2 y2 ++ line_cells x2 y2 x0 y0

/-- Relation that the loop maintains between the visited-cell buffer, the rows
written and the cells stood on. -/
structure WalkInv (w h : Int) (s : Walk) : Prop where
  size : s.edge_buf.length = (w * h).toNat
  marked : ∀ x y, in_grid w h x y →
    (s.edge_buf.getD (cell_index w x y) 0 ≠ 0 ↔ (x, y) ∈ coords s.out)
  emitted : coords s.out = keep_first (clip w h s.visited)
  rows : s.out.map Sample.row = (List.range s.out.length).map Int.ofNat
  index : s.i = s.out.length

/-- Memory after the three calls, when each has enough fuel. -/
def walk_result (x0 y0 x1 y1 x2 y2 : Int) (z0 z1 z2 : ℚ) (w h : Int) : Walk :=
  visit_all z2 z0 w h (line_path x2 y2 x0 y0)
    (visit_all z1 z2 w h (line_path x1 y1 x2 y2)
      (visit_all z0 z1 w h (line_path x0 y0 x1 y1) (fresh w h)))

/-- No row written lies at or beyond `capacity`, the row count of the output
arrays. -/
def within_capacity (capacity : Int) (s : Walk) : Prop :=
  ∀ p ∈ s.out, p.row < capacity

instance (capacity : Int) (s : Walk) : Decidable (within_capacity capacity s) := by
  unfold within_capacity; infer_instance

/-- Integer points of an axis-aligned segment from `(xa,ya)` to `(xb,yb)`, listed
from the first endpoint to the second: the `k`-th point lies `k` unit moves from
`(xa,ya)` in the direction of `(xb,yb)`. -/
def segment_cells (xa ya xb yb : Int) : List (Int × Int) :=
  (List.range (max (xb - xa).natAbs (yb - ya).natAbs + 1)).map fun (k : Nat) =>
    (xa + Int.sign (xb - xa) * (k : Int), ya + Int.sign (yb - ya) * (k : Int))

/-- Cursor of `bresenhams_line` on the edge `(xa,ya) → (xb,yb)` after `k` advances
from the start cursor of lines 9 to 16. -/
def line_cursor (xa ya xb yb : Int) (k : Nat) : Cursor :=
  (advance (c_abs (xb - xa)) (-c_abs (yb - ya)) (if xa < xb then 1 else -1)
    (if ya < yb then 1 else -1))^[k] ⟨xa, ya, c_abs (xb - xa) + -c_abs (yb - ya), 0⟩

/-- Advances made by the three calls together: each call stands on one cell more
than it advances, so the count is the number of cells stood on less three. -/
def steps_taken (s : Walk) : Nat := s.visited.length - 3

/-- Indices at which lines 18 and 19 touch `edge_buf` at the current cell, in
order. `&&` evaluates left to right and stops at the first failed test, so the read
`edge_buf[x0 + y0 * w]` happens only after the four bounds tests passed, and the
write of line 19 only when the cell read was zero. -/
def visit_accesses (w h : Int) (c : Cursor) (s : Walk) : List Int :=
  if in_grid w h c.x0 c.y0 then
    if s.edge_buf.getD (cell_index w c.x0 c.y0) 0 = 0 then
      [c.x0 + c.y0 * w, c.x0 + c.y0 * w]
    else [c.x0 + c.y0 * w]
  else []

/-- Indices at which `edge_buf` is touched while lines 18 to 26 run at each cursor
of a list in turn, the memory being updated as the loop updates it. -/
def accesses_all (z0 z1 : ℚ) (w h : Int) : List Cursor → Walk → List Int
  | [], _ => []
  | c :: cs, s => visit_accesses w h c s ++ accesses_all z0 z1 w h cs (visit z0 z1 w h c s)

/-- Indices at which `edge_buf` is touched by the three calls of `edge_walk`. -/
def walk_accesses (x0 y0 x1 y1 x2 y2 : Int) (z0 z1 z2 : ℚ) (w h : Int) : List Int :=
  accesses_all z0 z1 w h (line_path x0 y0 x1 y1) (fresh w h) ++
    accesses_all z1 z2 w h (line_path x1 y1 x2 y2)
      (visit_all z0 z1 w h (line_path x0 y0 x1 y1) (fresh w h)) ++
    accesses_all z2 z0 w h (line_path x2 y2 x0 y0)
      (visit_all z1 z2 w h (line_path x1 y1 x2 y2)
        (visit_all z0 z1 w h (line_path x0 y0 x1 y1) (fresh w h)))

end Draft

namespace Draft

/-! ## The loop in terms of iterated advances -/

theorem loop_some (x1 y1 : Int) (z0 z1 : ℚ) (dx dy sx sy w h : Int) (n : Nat) :
    ∀ (fuel : Nat) (c : Cursor) (s : Walk),
      (∀ k < n, ¬ (((advance dx dy sx sy)^[k] c).x0 = x1 ∧ ((advance dx dy sx sy)^[k] c).y0 = y1)) →
      (((advance dx dy sx sy)^[n] c).x0 = x1 ∧ ((advance dx dy sx sy)^[n] c).y0 = y1) →
      n < fuel →
      bresenhams_loop x1 y1 z0 z1 dx dy sx sy w h fuel c s
        = some (visit_all z0 z1 w h (path dx dy sx sy n c) s) := by
  induction n with
  | zero =>
    intro fuel c s _ hat hf
    obtain ⟨f, rfl⟩ : ∃ f, fuel = f + 1 := ⟨fuel - 1, by omega⟩
    simp only [Function.iterate_zero, id_eq] at hat
    simp [bresenhams_loop, hat, path, visit_all]
  | succ n ih =>
    intro fuel c s hno hat hf
    obtain ⟨f, rfl⟩ : ∃ f, fuel = f + 1 := ⟨fuel - 1, by omega⟩
    have h0 := hno 0 (Nat.succ_pos n)
    simp only [Function.iterate_zero, id_eq] at h0
    have hrec := ih f (advance dx dy sx sy c) (visit z0 z1 w h c s)
      (fun k hk => by
        have := hno (k + 1) (Nat.succ_lt_succ hk)
        simpa [Function.iterate_succ_apply] using this)
      (by simpa [Function.iterate_succ_apply] using hat) (by omega)
    rw [bresenhams_loop]
    simp only [h0, if_false]
    rw [hrec]
    simp [path, visit_all]

theorem loop_none (x1 y1 : Int) (z0 z1 : ℚ) (dx dy sx sy w h : Int) :
    ∀ (fuel n : Nat) (c : Cursor) (s : Walk),
      (∀ k < n, ¬ (((advance dx dy sx sy)^[k] c).x0 = x1 ∧ ((advance dx dy sx sy)^[k] c).y0 = y1)) →
      fuel ≤ n →
      bresenhams_loop x1 y1 z0 z1 dx dy sx sy w h fuel c s = none := by
  intro fuel
  induction fuel with
  | zero => intro n c s _ _; rfl
  | succ f ih =>
    intro n c s hno hf
    obtain ⟨m, rfl⟩ : ∃ m, n = m + 1 := ⟨n - 1, by omega⟩
    have h0 := hno 0 (Nat.succ_pos m)
    simp only [Function.iterate_zero, id_eq] at h0
    rw [bresenhams_loop]
    simp only [h0, if_false]
    exact ih m _ _ (fun k hk => by
        have := hno (k + 1) (Nat.succ_lt_succ hk)
        simpa [Function.iterate_succ_apply] using this) (by omega)

theorem path_length (dx dy sx sy : Int) (n : Nat) (c : Cursor) :
    (path dx dy sx sy n c).length = n + 1 := by
  induction n generalizing c with
  | zero => rfl
  | succ n ih => simp [path, ih]

theorem path_eq_map (dx dy sx sy : Int) (n : Nat) (c : Cursor) :
    path dx dy sx sy n c = (List.range (n + 1)).map fun k => (advance dx dy sx sy)^[k] c := by
  induction n generalizing c with
  | zero => rfl
  | succ n ih =>
    rw [path, ih, List.range_succ_eq_map]
    simp [List.map_map, Function.comp_def]

/-! ## Arithmetic of the error accumulator -/

theorem c_abs_eq (a : Int) : c_abs a = (a.natAbs : Int) := by
  unfold c_abs; split_ifs <;> omega

theorem c_abs_nonneg (a : Int) : 0 ≤ c_abs a := by
  unfold c_abs; split_ifs <;> omega

/-- The sign chosen on lines 11 and 12 carries the start coordinate to the end
coordinate in `c_abs (b - a)` unit moves. -/
theorem sign_reaches (a b : Int) :
    a + (if a < b then (1 : Int) else -1) * c_abs (b - a) = b := by
  unfold c_abs; split_ifs <;> omega

/-- Shape of the cursor after `k` advances when the x extent dominates: x has
moved `k` times, y has moved `ky` times, and the accumulator stays within half
a column of the ideal line. -/
theorem xmajor_iterate (xa ya sx sy DX DY : Int) (hDY : 0 ≤ DY) (hle : DY ≤ DX) :
    ∀ k : Nat, (k : Int) ≤ DX →
      ∃ ky : Int, 0 ≤ ky ∧ ky ≤ DY ∧ ky ≤ k ∧ (k = DX → ky = DY) ∧
        (advance DX (-DY) sx sy)^[k] ⟨xa, ya, DX + -DY, 0⟩
          = ⟨xa + sx * k, ya + sy * ky, (ky + 1) * DX - (k + 1) * DY, k⟩ ∧
        -DX ≤ 2 * (ky * DX - k * DY) ∧ 2 * (ky * DX - k * DY) ≤ DX := by
  intro k
  induction k with
  | zero =>
    intro h0
    refine ⟨0, le_refl _, hDY, by simp, ?_, ?_, by simpa using h0, by simpa using h0⟩
    · intro h; simp at h; omega
    · simp; ring
  | succ k ih =>
    intro hk
    have hk' : (k : Int) ≤ DX := by push_cast at hk; omega
    have hDXpos : 0 < DX := by push_cast at hk; omega
    obtain ⟨ky, hky0, hkyD, hkyk, _, hc, hlo, hhi⟩ := ih hk'
    have hkD : (0 : Int) ≤ (DX - (k + 1)) * DY := mul_nonneg (by push_cast at hk; omega) hDY
    rw [Function.iterate_succ_apply', hc]
    have hx : 2 * ((ky + 1) * DX - ((k : Int) + 1) * DY) ≥ -DY := by nlinarith
    by_cases hy : 2 * ((ky + 1) * DX - ((k : Int) + 1) * DY) ≤ DX
    · have hky1 : ky + 1 ≤ DY := by
        by_contra hcon
        have : (0 : Int) ≤ (ky - DY) * DX := mul_nonneg (by omega) (by omega)
        nlinarith
      refine ⟨ky + 1, by omega, hky1, by push_cast; omega, ?_, ?_, ?_, ?_⟩
      · intro hEq
        push_cast at hEq
        have h1 : (k : Int) + 1 = DX := hEq
        by_contra hne
        have : (0 : Int) ≤ (DY - (ky + 1) - 1) * DX := mul_nonneg (by omega) (by omega)
        nlinarith
      · simp only [advance, hx, hy, if_true]
        push_cast
        congr 1 <;> ring
      · push_cast; nlinarith
      · push_cast; nlinarith
    · refine ⟨ky, hky0, hkyD, by push_cast; omega, ?_, ?_, ?_, ?_⟩
      · intro hEq
        push_cast at hEq
        have h1 : (k : Int) + 1 = DX := hEq
        by_contra hne
        have : (0 : Int) ≤ (DY - ky - 1) * DX := mul_nonneg (by omega) (by omega)
        nlinarith
      · simp only [advance, hx, hy, if_true, if_false]
        push_cast
        congr 1 <;> ring
      · push_cast; nlinarith
      · push_cast; nlinarith

/-- Shape of the cursor after `k` advances when the y extent dominates. -/
theorem ymajor_iterate (xa ya sx sy DX DY : Int) (hDX : 0 ≤ DX) (hle : DX ≤ DY) :
    ∀ k : Nat, (k : Int) ≤ DY →
      ∃ kx : Int, 0 ≤ kx ∧ kx ≤ DX ∧ kx ≤ k ∧ (k = DY → kx = DX) ∧
        (advance DX (-DY) sx sy)^[k] ⟨xa, ya, DX + -DY, 0⟩
          = ⟨xa + sx * kx, ya + sy * k, (k + 1) * DX - (kx + 1) * DY, k⟩ ∧
        -DY ≤ 2 * (k * DX - kx * DY) ∧ 2 * (k * DX - kx * DY) ≤ DY := by
  intro k
  induction k with
  | zero =>
    intro h0
    refine ⟨0, le_refl _, hDX, by simp, ?_, ?_, by simpa using h0, by simpa using h0⟩
    · intro h; simp at h; omega
    · simp; ring
  | succ k ih =>
    intro hk
    have hk' : (k : Int) ≤ DY := by push_cast at hk; omega
    have hDYpos : 0 < DY := by push_cast at hk; omega
    obtain ⟨kx, hkx0, hkxD, hkxk, _, hc, hlo, hhi⟩ := ih hk'
    have hkD : (0 : Int) ≤ (DY - (k + 1)) * DX := mul_nonneg (by push_cast at hk; omega) hDX
    rw [Function.iterate_succ_apply', hc]
    have hy : 2 * (((k : Int) + 1) * DX - (kx + 1) * DY) ≤ DX := by nlinarith
    by_cases hx : 2 * (((k : Int) + 1) * DX - (kx + 1) * DY) ≥ -DY
    · have hkx1 : kx + 1 ≤ DX := by
        by_contra hcon
        have : (0 : Int) ≤ (kx - DX) * DY := mul_nonneg (by omega) (by omega)
        nlinarith
      refine ⟨kx + 1, by omega, hkx1, by push_cast; omega, ?_, ?_, ?_, ?_⟩
      · intro hEq
        push_cast at hEq
        have h1 : (k : Int) + 1 = DY := hEq
        by_contra hne
        have : (0 : Int) ≤ (DX - (kx + 1) - 1) * DY := mul_nonneg (by omega) (by omega)
        nlinarith
      · simp only [advance, hx, hy, if_true]
        push_cast
        congr 1 <;> ring
      · push_cast; nlinarith
      · push_cast; nlinarith
    · refine ⟨kx, hkx0, hkxD, by push_cast; omega, ?_, ?_, ?_, ?_⟩
      · intro hEq
        push_cast at hEq
        have h1 : (k : Int) + 1 = DY := hEq
        by_contra hne
        have : (0 : Int) ≤ (DX - kx - 1) * DY := mul_nonneg (by omega) (by omega)
        nlinarith
      · simp only [advance, hx, hy, if_true, if_false]
        push_cast
        congr 1 <;> ring
      · push_cast; nlinarith
      · push_cast; nlinarith

theorem chebyshev_cast (xa ya xb yb : Int) :
    ((chebyshev xa ya xb yb : Nat) : Int) = max (c_abs (xb - xa)) (c_abs (yb - ya)) := by
  simp [chebyshev, c_abs_eq]

/-- Cursor after `k ≤ chebyshev` advances from the start cursor: each axis has
moved towards its end coordinate, the slower one never overtaking, and both are
exactly at the end after `chebyshev` advances. -/
theorem line_iterate (xa ya xb yb : Int) (k : Nat) (hk : k ≤ chebyshev xa ya xb yb) :
    ∃ kx ky : Int, 0 ≤ kx ∧ kx ≤ c_abs (xb - xa) ∧ 0 ≤ ky ∧ ky ≤ c_abs (yb - ya) ∧
      max kx ky = k ∧
      (k = chebyshev xa ya xb yb → kx = c_abs (xb - xa) ∧ ky = c_abs (yb - ya)) ∧
      (advance (c_abs (xb - xa)) (-c_abs (yb - ya)) (if xa < xb then 1 else -1)
          (if ya < yb then 1 else -1))^[k] ⟨xa, ya, c_abs (xb - xa) + -c_abs (yb - ya), 0⟩
        = ⟨xa + (if xa < xb then 1 else -1) * kx, ya + (if ya < yb then 1 else -1) * ky,
            (ky + 1) * c_abs (xb - xa) - (kx + 1) * c_abs (yb - ya), k⟩ := by
  have hM := chebyshev_cast xa ya xb yb
  have hX := c_abs_nonneg (xb - xa)
  have hY := c_abs_nonneg (yb - ya)
  have hkM : (k : Int) ≤ (chebyshev xa ya xb yb : Nat) := by exact_mod_cast hk
  rcases le_total (c_abs (yb - ya)) (c_abs (xb - xa)) with hle | hle
  · rw [hM, max_eq_left hle] at hkM
    obtain ⟨ky, h0, hD, hkk, hend, hc, _, _⟩ :=
      xmajor_iterate xa ya (if xa < xb then 1 else -1) (if ya < yb then 1 else -1) _ _ hY hle k hkM
    refine ⟨k, ky, by omega, hkM, h0, hD, max_eq_left hkk, ?_, hc⟩
    intro hEq
    have h1 : (k : Int) = c_abs (xb - xa) := by
      rw [hEq, hM, max_eq_left hle]
    exact ⟨h1, hend h1⟩
  · rw [hM, max_eq_right hle] at hkM
    obtain ⟨kx, h0, hD, hkk, hend, hc, _, _⟩ :=
      ymajor_iterate xa ya (if xa < xb then 1 else -1) (if ya < yb then 1 else -1) _ _ hX hle k hkM
    refine ⟨kx, k, h0, hD, by omega, hkM, max_eq_right hkk, ?_, hc⟩
    intro hEq
    have h1 : (k : Int) = c_abs (yb - ya) := by
      rw [hEq, hM, max_eq_right hle]
    exact ⟨hend h1, h1⟩

theorem line_iterate_end (xa ya xb yb : Int) :
    ((advance (c_abs (xb - xa)) (-c_abs (yb - ya)) (if xa < xb then 1 else -1)
        (if ya < yb then 1 else -1))^[chebyshev xa ya xb yb]
          ⟨xa, ya, c_abs (xb - xa) + -c_abs (yb - ya), 0⟩).cell = (xb, yb) := by
  obtain ⟨kx, ky, _, _, _, _, _, hend, hc⟩ := line_iterate xa ya xb yb _ (le_refl _)
  obtain ⟨h1, h2⟩ := hend rfl
  rw [hc, h1, h2]
  simp only [Cursor.cell, sign_reaches]

theorem line_iterate_before (xa ya xb yb : Int) (k : Nat) (hk : k < chebyshev xa ya xb yb) :
    ¬ (((advance (c_abs (xb - xa)) (-c_abs (yb - ya)) (if xa < xb then 1 else -1)
        (if ya < yb then 1 else -1))^[k]
          ⟨xa, ya, c_abs (xb - xa) + -c_abs (yb - ya), 0⟩).x0 = xb ∧
      ((advance (c_abs (xb - xa)) (-c_abs (yb - ya)) (if xa < xb then 1 else -1)
        (if ya < yb then 1 else -1))^[k]
          ⟨xa, ya, c_abs (xb - xa) + -c_abs (yb - ya), 0⟩).y0 = yb) := by
  obtain ⟨kx, ky, hx0, hxD, hy0, hyD, hmax, _, hc⟩ := line_iterate xa ya xb yb k (le_of_lt hk)
  rw [hc]
  rintro ⟨hx, hy⟩
  simp only at hx hy
  have hM := chebyshev_cast xa ya xb yb
  have hkM : (k : Int) < (chebyshev xa ya xb yb : Nat) := by exact_mod_cast hk
  have ex := sign_reaches xa xb
  have ey := sign_reaches ya yb
  have hkx : kx = c_abs (xb - xa) := by
    split_ifs at hx ex <;> omega
  have hky : ky = c_abs (yb - ya) := by
    split_ifs at hy ey <;> omega
  rw [hM, ← hkx, ← hky, hmax] at hkM
  exact lt_irrefl _ hkM

/-- With more than `chebyshev` units of fuel the call returns, having applied
lines 18 to 26 at each cursor of `line_path`; with less it runs out. -/
theorem bresenhams_line_eq (fuel : Nat) (xa ya : Int) (z0 : ℚ) (xb yb : Int) (z1 : ℚ)
    (s : Walk) (w h : Int) :
    bresenhams_line fuel xa ya z0 xb yb z1 s w h
      = if chebyshev xa ya xb yb < fuel
        then some (visit_all z0 z1 w h (line_path xa ya xb yb) s) else none := by
  unfold bresenhams_line line_path
  by_cases hf : chebyshev xa ya xb yb < fuel
  · rw [if_pos hf]
    apply loop_some
    · exact fun k hk => line_iterate_before xa ya xb yb k hk
    · have := line_iterate_end xa ya xb yb
      simp only [Cursor.cell, Prod.mk.injEq] at this
      exact this
    · exact hf
  · rw [if_neg hf]
    apply loop_none _ _ _ _ _ _ _ _ _ _ fuel (chebyshev xa ya xb yb)
    · exact fun k hk => line_iterate_before xa ya xb yb k hk
    · omega

/-! ## Deduplication and the visited-cell buffer -/

theorem keep_first_concat (l : List (Int × Int)) (a : Int × Int) :
    keep_first (l ++ [a]) = if a ∈ keep_first l then keep_first l else keep_first l ++ [a] := by
  simp [keep_first, List.foldl_append]

theorem mem_keep_first (l : List (Int × Int)) (a : Int × Int) : a ∈ keep_first l ↔ a ∈ l := by
  induction l using List.reverseRecOn with
  | nil => simp [keep_first]
  | append_singleton l b ih =>
    rw [keep_first_concat]
    by_cases hb : b ∈ keep_first l
    · rw [if_pos hb, List.mem_append, List.mem_singleton, ih]
      constructor
      · exact Or.inl
      · rintro (h | rfl)
        · exact h
        · exact ih.mp hb
    · rw [if_neg hb, List.mem_append, List.mem_append, ih]

theorem keep_first_nodup (l : List (Int × Int)) : (keep_first l).Nodup := by
  induction l using List.reverseRecOn with
  | nil => simp [keep_first]
  | append_singleton l b ih =>
    rw [keep_first_concat]
    by_cases hb : b ∈ keep_first l
    · rw [if_pos hb]; exact ih
    · rw [if_neg hb]
      refine List.Nodup.append ih (List.nodup_singleton b) ?_
      intro x hx hx'
      rw [List.mem_singleton] at hx'
      exact hb (hx' ▸ hx)

theorem keep_first_of_nodup (l : List (Int × Int)) (hl : l.Nodup) : keep_first l = l := by
  induction l using List.reverseRecOn with
  | nil => simp [keep_first]
  | append_singleton l b ih =>
    have hl' := List.nodup_append.mp hl
    have hb : b ∉ keep_first l := by
      rw [mem_keep_first]
      intro hb
      exact hl'.2.2 hb (List.mem_singleton_self b)
    rw [keep_first_concat, if_neg hb, ih hl'.1]

theorem keep_first_append_of_subset (l m : List (Int × Int)) (hm : ∀ a ∈ m, a ∈ l) :
    keep_first (l ++ m) = keep_first l := by
  induction m using List.reverseRecOn with
  | nil => simp
  | append_singleton m b ih =>
    have hm' : ∀ a ∈ m, a ∈ l := fun a ha => hm a (List.mem_append_left _ ha)
    have hb : b ∈ keep_first (l ++ m) := by
      rw [mem_keep_first]
      exact List.mem_append_left _ (hm b (List.mem_append_right _ (List.mem_singleton_self b)))
    rw [← List.append_assoc, keep_first_concat, if_pos hb, ih hm']

theorem clip_concat (w h : Int) (l : List (Int × Int)) (a : Int × Int) :
    clip w h (l ++ [a]) = if in_grid w h a.1 a.2 then clip w h l ++ [a] else clip w h l := by
  unfold clip
  by_cases ha : in_grid w h a.1 a.2 <;> simp [List.filter_append, List.filter_cons, ha]

theorem mem_clip (w h : Int) (l : List (Int × Int)) (a : Int × Int) :
    a ∈ clip w h l ↔ a ∈ l ∧ in_grid w h a.1 a.2 := by
  simp [clip, List.mem_filter]

theorem cell_index_lt (w h x y : Int) (hg : in_grid w h x y) :
    cell_index w x y < (w * h).toNat := by
  obtain ⟨hx0, hxw, hy0, hyh⟩ := hg
  have h1 : (0 : Int) ≤ (h - 1 - y) * w := mul_nonneg (by omega) (by omega)
  have h2 : (0 : Int) ≤ y * w := mul_nonneg hy0 (by omega)
  unfold cell_index
  have h3 : x + y * w < w * h := by nlinarith
  omega

theorem cell_index_inj (w h x y x' y' : Int) (hg : in_grid w h x y) (hg' : in_grid w h x' y')
    (he : cell_index w x y = cell_index w x' y') : x = x' ∧ y = y' := by
  obtain ⟨hx0, hxw, hy0, hyh⟩ := hg
  obtain ⟨hx0', hxw', hy0', hyh'⟩ := hg'
  have h2 : (0 : Int) ≤ y * w := mul_nonneg hy0 (by omega)
  have h2' : (0 : Int) ≤ y' * w := mul_nonneg hy0' (by omega)
  unfold cell_index at he
  have he' : x + y * w = x' + y' * w := by omega
  have hy : y = y' := by
    rcases lt_trichotomy y y' with hlt | heq | hgt
    · have : (0 : Int) ≤ (y' - y - 1) * w := mul_nonneg (by omega) (by omega)
      nlinarith
    · exact heq
    · have : (0 : Int) ≤ (y - y' - 1) * w := mul_nonneg (by omega) (by omega)
      nlinarith
  subst hy
  exact ⟨by omega, rfl⟩

theorem getD_set_ne_zero (l : List Int) (k j : Nat) (hk : k < l.length) :
    (l.set k 1).getD j 0 ≠ 0 ↔ j = k ∨ l.getD j 0 ≠ 0 := by
  simp only [List.getD_eq_getElem?_getD, List.getElem?_set]
  by_cases hjk : k = j
  · subst hjk
    simp [hk]
  · simp [hjk, Ne.symm hjk]

theorem fresh_inv (w h : Int) : WalkInv w h (fresh w h) where
  size := by simp [fresh]
  marked := by
    intro x y _
    simp [fresh, coords, List.getElem?_replicate]
    split_ifs <;> simp
  emitted := by simp [fresh, coords, clip, keep_first]
  rows := by simp [fresh]
  index := by simp [fresh]

theorem visit_visited (z0 z1 : ℚ) (w h : Int) (c : Cursor) (s : Walk) :
    (visit z0 z1 w h c s).visited = s.visited ++ [c.cell] := by
  unfold visit Cursor.cell
  dsimp only
  split_ifs <;> rfl

theorem visit_inv (z0 z1 : ℚ) (w h : Int) (c : Cursor) (s : Walk) (hs : WalkInv w h s) :
    WalkInv w h (visit z0 z1 w h c s) := by
  by_cases hg : in_grid w h c.x0 c.y0
  · by_cases hb : s.edge_buf.getD (cell_index w c.x0 c.y0) 0 = 0
    · have hnew : (c.x0, c.y0) ∉ coords s.out := by
        intro hmem
        exact ((hs.marked _ _ hg).mpr hmem) hb
      have hv : visit z0 z1 w h c s =
          { edge_buf := s.edge_buf.set (cell_index w c.x0 c.y0) 1
            out := s.out ++ [⟨s.i, c.x0, c.y0, z0 + (z1 - z0) * (c.t : ℚ)⟩]
            i := s.i + 1
            visited := s.visited ++ [(c.x0, c.y0)] } := by
        unfold visit
        dsimp only
        rw [if_pos ⟨hg, hb⟩]
      rw [hv]
      have hlt : cell_index w c.x0 c.y0 < s.edge_buf.length := by
        rw [hs.size]; exact cell_index_lt w h _ _ hg
      refine ⟨by simp [hs.size], ?_, ?_, ?_, ?_⟩
      · intro x y hxy
        dsimp only
        rw [getD_set_ne_zero _ _ _ hlt, hs.marked x y hxy]
        simp only [coords, List.map_append, List.mem_append, List.map_cons, List.map_nil,
          List.mem_singleton, Prod.mk.injEq]
        constructor
        · rintro (he | hm)
          · exact Or.inr (cell_index_inj w h _ _ _ _ hxy hg he)
          · exact Or.inl hm
        · rintro (hm | ⟨rfl, rfl⟩)
          · exact Or.inr hm
          · exact Or.inl rfl
      · dsimp only
        rw [clip_concat, if_pos hg, keep_first_concat, ← hs.emitted, if_neg hnew]
        simp [coords]
      · dsimp only
        simp only [List.map_append, List.length_append, List.length_singleton, List.map_cons,
          List.map_nil, List.range_succ, hs.rows, hs.index]
        rfl
      · dsimp only
        simp [hs.index]
    · have hv : visit z0 z1 w h c s = { s with visited := s.visited ++ [(c.x0, c.y0)] } := by
        unfold visit
        dsimp only
        rw [if_neg (fun hh => hb hh.2)]
      rw [hv]
      have hold : (c.x0, c.y0) ∈ coords s.out := (hs.marked _ _ hg).mp hb
      refine ⟨hs.size, hs.marked, ?_, hs.rows, hs.index⟩
      dsimp only
      rw [clip_concat, if_pos hg, keep_first_concat, ← hs.emitted, if_pos hold]
  · have hv : visit z0 z1 w h c s = { s with visited := s.visited ++ [(c.x0, c.y0)] } := by
      unfold visit
      dsimp only
      rw [if_neg (fun hh => hg hh.1)]
    rw [hv]
    refine ⟨hs.size, hs.marked, ?_, hs.rows, hs.index⟩
    dsimp only
    rw [clip_concat, if_neg hg, ← hs.emitted]

theorem visit_all_visited (z0 z1 : ℚ) (w h : Int) (cs : List Cursor) (s : Walk) :
    (visit_all z0 z1 w h cs s).visited = s.visited ++ cs.map Cursor.cell := by
  induction cs generalizing s with
  | nil => simp [visit_all]
  | cons c cs ih =>
    have := ih (visit z0 z1 w h c s)
    simp only [visit_all, List.foldl_cons] at this ⊢
    rw [this, visit_visited]
    simp

theorem visit_all_inv (z0 z1 : ℚ) (w h : Int) (cs : List Cursor) (s : Walk)
    (hs : WalkInv w h s) : WalkInv w h (visit_all z0 z1 w h cs s) := by
  induction cs generalizing s with
  | nil => simpa [visit_all] using hs
  | cons c cs ih =>
    have := ih (visit z0 z1 w h c s) (visit_inv z0 z1 w h c s hs)
    simpa [visit_all] using this

/-! ## The three-edge walk -/

theorem edge_walk_eq (fuel : Nat) (x0 y0 x1 y1 x2 y2 : Int) (z0 z1 z2 : ℚ) (w h : Int)
    (hf : walk_fuel x0 y0 x1 y1 x2 y2 < fuel) :
    edge_walk fuel x0 y0 x1 y1 x2 y2 z0 z1 z2 w h
      = some (walk_result x0 y0 x1 y1 x2 y2 z0 z1 z2 w h) := by
  unfold walk_fuel at hf
  have h1 : chebyshev x0 y0 x1 y1 < fuel := by omega
  have h2 : chebyshev x1 y1 x2 y2 < fuel := by omega
  have h3 : chebyshev x2 y2 x0 y0 < fuel := by omega
  simp only [edge_walk, bresenhams_line_eq, if_pos h1, if_pos h2, if_pos h3, walk_result]

theorem walk_result_inv (x0 y0 x1 y1 x2 y2 : Int) (z0 z1 z2 : ℚ) (w h : Int) :
    WalkInv w h (walk_result x0 y0 x1 y1 x2 y2 z0 z1 z2 w h) :=
  visit_all_inv _ _ _ _ _ _ (visit_all_inv _ _ _ _ _ _ (visit_all_inv _ _ _ _ _ _ (fresh_inv w h)))

theorem walk_result_visited (x0 y0 x1 y1 x2 y2 : Int) (z0 z1 z2 : ℚ) (w h : Int) :
    (walk_result x0 y0 x1 y1 x2 y2 z0 z1 z2 w h).visited = walk_cells x0 y0 x1 y1 x2 y2 := by
  simp [walk_result, visit_all_visited, walk_cells, line_cells, fresh]

theorem walk_result_coords (x0 y0 x1 y1 x2 y2 : Int) (z0 z1 z2 : ℚ) (w h : Int) :
    coords (walk_result x0 y0 x1 y1 x2 y2 z0 z1 z2 w h).out
      = keep_first (clip w h (walk_cells x0 y0 x1 y1 x2 y2)) := by
  rw [(walk_result_inv x0 y0 x1 y1 x2 y2 z0 z1 z2 w h).emitted, walk_result_visited]

theorem line_cells_head (xa ya xb yb : Int) :
    ∃ tl, line_cells xa ya xb yb = (xa, ya) :: tl := by
  unfold line_cells line_path
  cases chebyshev xa ya xb yb <;> simp [path, Cursor.cell]

theorem coords_length_le (w h : Int) (l : List (Int × Int)) (hn : l.Nodup)
    (hg : ∀ p ∈ l, in_grid w h p.1 p.2) : l.length ≤ (w * h).toNat := by
  have hinj : ∀ p ∈ l, ∀ q ∈ l, cell_index w p.1 p.2 = cell_index w q.1 q.2 → p = q := by
    intro p hp q hq he
    obtain ⟨h1, h2⟩ := cell_index_inj w h _ _ _ _ (hg p hp) (hg q hq) he
    exact Prod.ext h1 h2
  have hn' : (l.map fun p => cell_index w p.1 p.2).Nodup :=
    List.Nodup.map_on (fun p hp q hq he => hinj p hp q hq he) hn
  have hsub : (l.map fun p => cell_index w p.1 p.2).toFinset ⊆ Finset.range (w * h).toNat := by
    intro k hk
    rw [List.mem_toFinset, List.mem_map] at hk
    obtain ⟨p, hp, rfl⟩ := hk
    exact Finset.mem_range.mpr (cell_index_lt w h _ _ (hg p hp))
  have hc := Finset.card_le_card hsub
  rw [List.toFinset_card_of_nodup hn', Finset.card_range, List.length_map] at hc
  exact hc

theorem inv_nodup (w h : Int) (s : Walk) (hs : WalkInv w h s) : (coords s.out).Nodup := by
  rw [hs.emitted]; exact keep_first_nodup _

theorem inv_in_grid (w h : Int) (s : Walk) (hs : WalkInv w h s) :
    ∀ p ∈ s.out, in_grid w h p.x p.y := by
  intro p hp
  have hm : (p.x, p.y) ∈ coords s.out := List.mem_map.mpr ⟨p, hp, rfl⟩
  rw [hs.emitted, mem_keep_first, mem_clip] at hm
  exact hm.2

theorem inv_row_lt (w h : Int) (s : Walk) (hs : WalkInv w h s) :
    ∀ p ∈ s.out, 0 ≤ p.row ∧ p.row < s.out.length := by
  intro p hp
  have hm : p.row ∈ s.out.map Sample.row := List.mem_map.mpr ⟨p, hp, rfl⟩
  rw [hs.rows, List.mem_map] at hm
  obtain ⟨k, hk, hkr⟩ := hm
  rw [List.mem_range] at hk
  rw [← hkr]
  exact ⟨Int.ofNat_nonneg k, Int.ofNat_lt.mpr hk⟩

theorem inv_length_le (w h : Int) (s : Walk) (hs : WalkInv w h s) :
    s.out.length ≤ (w * h).toNat := by
  have hl := coords_length_le w h (coords s.out) (inv_nodup w h s hs) (by
    intro p hp
    rw [hs.emitted, mem_keep_first, mem_clip] at hp
    exact hp.2)
  simpa [coords] using hl

/-! ## Properties of the draft walk -/

/-- Draft, uniqueness: for a grid of positive width and height and any three integer
vertices and depths, the walk returns (given fuel for its longest edge) and no
pixel coordinate occurs twice among the samples it wrote. -/
theorem edge_walk_unique (fuel : Nat) (x0 y0 x1 y1 x2 y2 : Int) (z0 z1 z2 : ℚ) (w h : Int)
    (_hw : 0 < w) (_hh : 0 < h) (hf : walk_fuel x0 y0 x1 y1 x2 y2 < fuel) :
    ∃ r, edge_walk fuel x0 y0 x1 y1 x2 y2 z0 z1 z2 w h = some r ∧ (coords r.out).Nodup :=
  ⟨_, edge_walk_eq fuel x0 y0 x1 y1 x2 y2 z0 z1 z2 w h hf,
    inv_nodup w h _ (walk_result_inv x0 y0 x1 y1 x2 y2 z0 z1 z2 w h)⟩

theorem edge_walk_unique_witness :
    (0 : Int) < 10 ∧ (0 : Int) < 10 ∧ walk_fuel (-5) (-5) 3 7 8 2 < 14 ∧
      ∃ r, edge_walk 14 (-5) (-5) 3 7 8 2 1 2 3 10 10 = some r ∧ (coords r.out).Nodup :=
  ⟨by decide, by decide, by decide,
    edge_walk_unique 14 (-5) (-5) 3 7 8 2 1 2 3 10 10 (by decide) (by decide) (by decide)⟩

/-- Draft, boundedness: for a grid of positive width and height and any three integer
vertices, inside the grid or not, the walk returns and every sample it wrote has
`0 <= x < w` and `0 <= y < h`. -/
theorem edge_walk_bounded (fuel : Nat) (x0 y0 x1 y1 x2 y2 : Int) (z0 z1 z2 : ℚ) (w h : Int)
    (_hw : 0 < w) (_hh : 0 < h) (hf : walk_fuel x0 y0 x1 y1 x2 y2 < fuel) :
    ∃ r, edge_walk fuel x0 y0 x1 y1 x2 y2 z0 z1 z2 w h = some r ∧
      ∀ p ∈ r.out, 0 ≤ p.x ∧ p.x < w ∧ 0 ≤ p.y ∧ p.y < h :=
  ⟨_, edge_walk_eq fuel x0 y0 x1 y1 x2 y2 z0 z1 z2 w h hf,
    fun p hp => inv_in_grid w h _ (walk_result_inv x0 y0 x1 y1 x2 y2 z0 z1 z2 w h) p hp⟩

theorem edge_walk_bounded_witness :
    (0 : Int) < 10 ∧ (0 : Int) < 10 ∧ walk_fuel (-5) (-5) 3 7 8 2 < 14 ∧
      ∃ r, edge_walk 14 (-5) (-5) 3 7 8 2 1 2 3 10 10 = some r ∧
        ∀ p ∈ r.out, 0 ≤ p.x ∧ p.x < 10 ∧ 0 ≤ p.y ∧ p.y < 10 :=
  ⟨by decide, by decide, by decide,
    edge_walk_bounded 14 (-5) (-5) 3 7 8 2 1 2 3 10 10 (by decide) (by decide) (by decide)⟩

/-- Draft: with `v0 = (0,0)`, `v1 = (4,0)`, `v2 = (0,0)` on a 10 x 10
grid and output arrays of 3 rows, the walk writes 5 rows, two of them at row
indices 3 and 4. -/
theorem capacity_not_respected :
    ∃ r, edge_walk 5 0 0 4 0 0 0 0 4 0 10 10 = some r ∧
      ¬ within_capacity 3 r ∧ ¬ r.out.length ≤ 3 ∧
      r.out.map Sample.row = [0, 1, 2, 3, 4] :=
  ⟨_, edge_walk_eq 5 0 0 4 0 0 0 0 4 0 10 10 (by decide),
    by decide, by decide, by decide⟩

/-- Draft: the walk never looks at a capacity, but the rows it writes are
numbered from 0 without gaps and there are at most `w * h` of them, so output
arrays of `capacity >= w * h` rows (and `capacity >= 0`) are never overrun. -/
theorem edge_walk_capacity (fuel : Nat) (x0 y0 x1 y1 x2 y2 : Int) (z0 z1 z2 : ℚ) (w h : Int)
    (capacity : Int) (hc : 0 ≤ capacity) (hwh : w * h ≤ capacity)
    (hf : walk_fuel x0 y0 x1 y1 x2 y2 < fuel) :
    ∃ r, edge_walk fuel x0 y0 x1 y1 x2 y2 z0 z1 z2 w h = some r ∧
      (∀ p ∈ r.out, 0 ≤ p.row ∧ p.row < capacity) ∧
      (r.out.length : Int) ≤ capacity := by
  have hinv := walk_result_inv x0 y0 x1 y1 x2 y2 z0 z1 z2 w h
  have hlen := inv_length_le w h _ hinv
  have hcap : ((walk_result x0 y0 x1 y1 x2 y2 z0 z1 z2 w h).out.length : Int) ≤ capacity := by
    omega
  refine ⟨_, edge_walk_eq fuel x0 y0 x1 y1 x2 y2 z0 z1 z2 w h hf, ?_, hcap⟩
  intro p hp
  have := inv_row_lt w h _ hinv p hp
  exact ⟨this.1, lt_of_lt_of_le this.2 hcap⟩

theorem edge_walk_capacity_witness :
    (0 : Int) ≤ 100 ∧ (10 : Int) * 10 ≤ 100 ∧ walk_fuel 0 0 4 0 0 0 < 5 ∧
      ∃ r, edge_walk 5 0 0 4 0 0 0 0 4 0 10 10 = some r ∧
        (∀ p ∈ r.out, 0 ≤ p.row ∧ p.row < 100) ∧ (r.out.length : Int) ≤ 100 :=
  ⟨by decide, by decide, by decide,
    edge_walk_capacity 5 0 0 4 0 0 0 0 4 0 10 10 100 (by decide) (by decide) (by decide)⟩

/-- Draft: on the edge `(0,0,z=0) → (4,0,z=4)` of a 10 x 10 grid
the depths stored with the cells `(0,0)..(4,0)` are `0, 4, 8, 12, 16`, the value
`z0 + (z1 - z0) * t` with `t` the raw step count, not `0, 1, 2, 3, 4`. -/
theorem depth_not_normalised :
    (bresenhams_line 5 0 0 0 4 0 4 (fresh 10 10) 10 10).map
        (fun s => s.out.map fun p => (p.x, p.y, p.z))
      = some [(0, 0, 0), (1, 0, 4), (2, 0, 8), (3, 0, 12), (4, 0, 16)] := by
  with_unfolding_all decide

/-- Draft, ordering and first edge wins: for a grid of positive width and height the
walk returns, the cells it stood on are those of `v0 → v1`, then `v1 → v2`, then
`v2 → v0`, each from its first endpoint to its second, and the pixel coordinates
it wrote are that sequence with the cells outside the grid removed and only the
first occurrence of each cell kept. -/
theorem edge_walk_order (fuel : Nat) (x0 y0 x1 y1 x2 y2 : Int) (z0 z1 z2 : ℚ) (w h : Int)
    (_hw : 0 < w) (_hh : 0 < h) (hf : walk_fuel x0 y0 x1 y1 x2 y2 < fuel) :
    ∃ r, edge_walk fuel x0 y0 x1 y1 x2 y2 z0 z1 z2 w h = some r ∧
      r.visited
        = line_cells x0 y0 x1 y1 ++ line_cells x1 y1 x2 y2 ++ line_cells x2 y2 x0 y0 ∧
      coords r.out
        = keep_first (clip w h
            (line_cells x0 y0 x1 y1 ++ line_cells x1 y1 x2 y2 ++ line_cells x2 y2 x0 y0)) :=
  ⟨_, edge_walk_eq fuel x0 y0 x1 y1 x2 y2 z0 z1 z2 w h hf,
    walk_result_visited x0 y0 x1 y1 x2 y2 z0 z1 z2 w h,
    walk_result_coords x0 y0 x1 y1 x2 y2 z0 z1 z2 w h⟩

theorem edge_walk_order_witness :
    (0 : Int) < 10 ∧ (0 : Int) < 10 ∧ walk_fuel (-1) 0 2 1 1 3 < 4 ∧
      ∃ r, edge_walk 4 (-1) 0 2 1 1 3 1 2 3 10 10 = some r ∧
        r.visited
          = line_cells (-1) 0 2 1 ++ line_cells 2 1 1 3 ++ line_cells 1 3 (-1) 0 ∧
        coords r.out
          = keep_first (clip 10 10
              (line_cells (-1) 0 2 1 ++ line_cells 2 1 1 3 ++ line_cells 1 3 (-1) 0)) :=
  ⟨by decide, by decide, by decide,
    edge_walk_order 4 (-1) 0 2 1 1 3 1 2 3 10 10 (by decide) (by decide) (by decide)⟩

/-- Draft, endpoint inclusion: for a triangle with pairwise distinct vertices that all
lie inside the grid, the walk returns and each of `v0`, `v1`, `v2` is among the
pixel coordinates it wrote. -/
theorem edge_walk_endpoints (fuel : Nat) (x0 y0 x1 y1 x2 y2 : Int) (z0 z1 z2 : ℚ) (w h : Int)
    (_h01 : (x0, y0) ≠ (x1, y1)) (_h12 : (x1, y1) ≠ (x2, y2)) (_h20 : (x2, y2) ≠ (x0, y0))
    (hg0 : in_grid w h x0 y0) (hg1 : in_grid w h x1 y1) (hg2 : in_grid w h x2 y2)
    (hf : walk_fuel x0 y0 x1 y1 x2 y2 < fuel) :
    ∃ r, edge_walk fuel x0 y0 x1 y1 x2 y2 z0 z1 z2 w h = some r ∧
      (x0, y0) ∈ coords r.out ∧ (x1, y1) ∈ coords r.out ∧ (x2, y2) ∈ coords r.out := by
  refine ⟨_, edge_walk_eq fuel x0 y0 x1 y1 x2 y2 z0 z1 z2 w h hf, ?_⟩
  obtain ⟨t0, ht0⟩ := line_cells_head x0 y0 x1 y1
  obtain ⟨t1, ht1⟩ := line_cells_head x1 y1 x2 y2
  obtain ⟨t2, ht2⟩ := line_cells_head x2 y2 x0 y0
  simp only [walk_result_coords, mem_keep_first, mem_clip, walk_cells, ht0, ht1, ht2]
  exact ⟨⟨by simp, hg0⟩, ⟨by simp, hg1⟩, ⟨by simp, hg2⟩⟩

theorem edge_walk_endpoints_witness :
    ((1 : Int), (1 : Int)) ≠ (7, 3) ∧ ((7 : Int), (3 : Int)) ≠ (4, 8) ∧
      ((4 : Int), (8 : Int)) ≠ (1, 1) ∧
      in_grid 10 10 1 1 ∧ in_grid 10 10 7 3 ∧ in_grid 10 10 4 8 ∧
      walk_fuel 1 1 7 3 4 8 < 8 ∧
      ∃ r, edge_walk 8 1 1 7 3 4 8 1 2 3 10 10 = some r ∧
        (1, 1) ∈ coords r.out ∧ (7, 3) ∈ coords r.out ∧ (4, 8) ∈ coords r.out :=
  ⟨by decide, by decide, by decide, by decide, by decide, by decide, by decide,
    edge_walk_endpoints 8 1 1 7 3 4 8 1 2 3 10 10 (by decide) (by decide) (by decide)
      (by decide) (by decide) (by decide) (by decide)⟩

theorem line_path_last (xa ya xb yb : Int) :
    ∃ c, (line_path xa ya xb yb).getLast? = some c ∧ c.cell = (xb, yb) ∧
      c.t = (chebyshev xa ya xb yb : Nat) := by
  obtain ⟨kx, ky, _, _, _, _, _, _, hc⟩ := line_iterate xa ya xb yb _ (le_refl _)
  refine ⟨_, ?_, line_iterate_end xa ya xb yb, ?_⟩
  · unfold line_path
    rw [path_eq_map, List.getLast?_map, List.getLast?_range]
    simp
  · rw [hc]

/-- Draft, line-stepper termination: with fuel for more than `max(|xb-xa|, |yb-ya|)`
iterations the loop reaches its `break`; the cells it stood on are
`max(|xb-xa|, |yb-ya|) + 1` in number, the first is `(xa,ya)`, the last is
`(xb,yb)`, where the step counter `t` equals `max(|xb-xa|, |yb-ya|)`; and with
any smaller fuel the `break` is not reached, so the number of steps is exact. -/
theorem bresenhams_line_terminates (fuel : Nat) (xa ya : Int) (z0 : ℚ) (xb yb : Int) (z1 : ℚ)
    (s : Walk) (w h : Int) (hf : chebyshev xa ya xb yb < fuel) :
    ∃ r, bresenhams_line fuel xa ya z0 xb yb z1 s w h = some r ∧
      r.visited = s.visited ++ line_cells xa ya xb yb ∧
      (line_cells xa ya xb yb).length = max (xb - xa).natAbs (yb - ya).natAbs + 1 ∧
      (line_cells xa ya xb yb).head? = some (xa, ya) ∧
      (line_cells xa ya xb yb).getLast? = some (xb, yb) ∧
      (line_path xa ya xb yb).getLast?.map Cursor.t
        = some ((max (xb - xa).natAbs (yb - ya).natAbs : Nat) : Int) ∧
      ∀ fuel', fuel' ≤ max (xb - xa).natAbs (yb - ya).natAbs →
        bresenhams_line fuel' xa ya z0 xb yb z1 s w h = none := by
  obtain ⟨c, hlast, hcell, ht⟩ := line_path_last xa ya xb yb
  obtain ⟨tl, htl⟩ := line_cells_head xa ya xb yb
  refine ⟨_, by rw [bresenhams_line_eq, if_pos hf], visit_all_visited _ _ _ _ _ _, ?_, ?_, ?_,
    ?_, ?_⟩
  · simp only [line_cells, line_path, List.length_map, path_length]
    rfl
  · rw [htl]; rfl
  · simp only [line_cells, List.getLast?_map, hlast, Option.map_some', hcell]
  · rw [hlast, Option.map_some', ht]
    rfl
  · intro fuel' hf'
    rw [bresenhams_line_eq, if_neg]
    exact Nat.not_lt.mpr hf'

theorem bresenhams_line_terminates_witness :
    chebyshev (-2) 1 3 4 < 6 ∧
      ∃ r, bresenhams_line 6 (-2) 1 0 3 4 1 (fresh 4 4) 4 4 = some r ∧
        r.visited = (fresh 4 4).visited ++ line_cells (-2) 1 3 4 ∧
        (line_cells (-2) 1 3 4).length
          = max ((3 : Int) - (-2)).natAbs ((4 : Int) - 1).natAbs + 1 ∧
        (line_cells (-2) 1 3 4).head? = some (-2, 1) ∧
        (line_cells (-2) 1 3 4).getLast? = some (3, 4) ∧
        (line_path (-2) 1 3 4).getLast?.map Cursor.t
          = some ((max ((3 : Int) - (-2)).natAbs ((4 : Int) - 1).natAbs : Nat) : Int) ∧
        ∀ fuel', fuel' ≤ max ((3 : Int) - (-2)).natAbs ((4 : Int) - 1).natAbs →
          bresenhams_line fuel' (-2) 1 0 3 4 1 (fresh 4 4) 4 4 = none :=
  ⟨by decide, bresenhams_line_terminates 6 (-2) 1 0 3 4 1 (fresh 4 4) 4 4 (by decide)⟩

theorem visit_of_mem (z0 z1 : ℚ) (w h : Int) (c : Cursor) (s : Walk) (hs : WalkInv w h s)
    (hm : (c.x0, c.y0) ∈ coords s.out) :
    (visit z0 z1 w h c s).out = s.out ∧ (visit z0 z1 w h c s).i = s.i := by
  have hg : in_grid w h c.x0 c.y0 := by
    rw [hs.emitted, mem_keep_first, mem_clip] at hm
    exact hm.2
  have hb : ¬ s.edge_buf.getD (cell_index w c.x0 c.y0) 0 = 0 := (hs.marked _ _ hg).mpr hm
  unfold visit
  dsimp only
  rw [if_neg (fun hh => hb hh.2)]
  exact ⟨rfl, rfl⟩

theorem visit_of_new (z0 z1 : ℚ) (w h : Int) (c : Cursor) (s : Walk) (hs : WalkInv w h s)
    (hg : in_grid w h c.x0 c.y0) (hm : (c.x0, c.y0) ∉ coords s.out) :
    (visit z0 z1 w h c s).out = s.out ++ [⟨s.i, c.x0, c.y0, z0 + (z1 - z0) * (c.t : ℚ)⟩] ∧
      (visit z0 z1 w h c s).i = s.i + 1 := by
  have hb : s.edge_buf.getD (cell_index w c.x0 c.y0) 0 = 0 := by
    by_contra hne
    exact hm ((hs.marked _ _ hg).mp hne)
  unfold visit
  dsimp only
  rw [if_pos ⟨hg, hb⟩]
  exact ⟨rfl, rfl⟩

theorem line_path_point (px py : Int) : line_path px py px py = [⟨px, py, 0, 0⟩] := by
  simp [line_path, chebyshev, path, c_abs]

/-- Draft, degenerate triangle: when the three vertices coincide at a point `p` of the
grid and carry the same depth `z`, the walk returns having written exactly one
sample, `(p, z)`, at row 0, and its running index is 1. -/
theorem edge_walk_degenerate (fuel : Nat) (px py : Int) (z : ℚ) (w h : Int)
    (hg : in_grid w h px py) (hf : 0 < fuel) :
    ∃ r, edge_walk fuel px py px py px py z z z w h = some r ∧
      r.out = [⟨0, px, py, z⟩] ∧ r.i = 1 := by
  have hfuel : walk_fuel px py px py px py < fuel := by
    simpa [walk_fuel, chebyshev] using hf
  refine ⟨_, edge_walk_eq fuel px py px py px py z z z w h hfuel, ?_⟩
  simp only [walk_result, line_path_point, visit_all, List.foldl_cons, List.foldl_nil]
  have h0 := fresh_inv w h
  have v1 := visit_of_new z z w h ⟨px, py, 0, 0⟩ (fresh w h) h0 hg (by simp [fresh, coords])
  have h1 := visit_inv z z w h ⟨px, py, 0, 0⟩ (fresh w h) h0
  have hout1 : (visit z z w h ⟨px, py, 0, 0⟩ (fresh w h)).out = [⟨0, px, py, z⟩] := by
    rw [v1.1]; simp [fresh]
  have hi1 : (visit z z w h ⟨px, py, 0, 0⟩ (fresh w h)).i = 1 := by
    rw [v1.2]; simp [fresh]
  have v2 := visit_of_mem z z w h ⟨px, py, 0, 0⟩ _ h1 (by rw [hout1]; simp [coords])
  have h2 := visit_inv z z w h ⟨px, py, 0, 0⟩ _ h1
  have v3 := visit_of_mem z z w h ⟨px, py, 0, 0⟩ _ h2 (by rw [v2.1, hout1]; simp [coords])
  exact ⟨by rw [v3.1, v2.1, hout1], by rw [v3.2, v2.2, hi1]⟩

theorem edge_walk_degenerate_witness :
    in_grid 10 10 5 5 ∧ 0 < 1 ∧
      ∃ r, edge_walk 1 5 5 5 5 5 5 1 1 1 10 10 = some r ∧
        r.out = [⟨0, 5, 5, 1⟩] ∧ r.i = 1 :=
  ⟨by decide, by decide, edge_walk_degenerate 1 5 5 1 10 10 (by decide) (by decide)⟩

/-! ## Axis-aligned edges -/

theorem line_cells_eq_map (xa ya xb yb : Int) :
    line_cells xa ya xb yb = (List.range (chebyshev xa ya xb yb + 1)).map fun k =>
      ((advance (c_abs (xb - xa)) (-c_abs (yb - ya)) (if xa < xb then 1 else -1)
        (if ya < yb then 1 else -1))^[k]
          ⟨xa, ya, c_abs (xb - xa) + -c_abs (yb - ya), 0⟩).cell := by
  unfold line_cells line_path
  rw [path_eq_map, List.map_map]
  rfl

theorem sign_mul_of_le (a b k : Int) (hk0 : 0 ≤ k) (hk : k ≤ c_abs (b - a)) :
    (if a < b then (1 : Int) else -1) * k = Int.sign (b - a) * k := by
  rcases lt_trichotomy a b with hlt | heq | hgt
  · rw [if_pos hlt, Int.sign_eq_one_of_pos (by omega)]
  · subst heq
    have : k = 0 := by simp [c_abs] at hk; omega
    simp [this]
  · rw [if_neg (by omega), Int.sign_eq_neg_one_of_neg (by omega)]

/-- On a row or a column the stepper visits the integer points of the segment. -/
theorem line_cells_axis (xa ya xb yb : Int) (hax : ya = yb ∨ xa = xb) :
    line_cells xa ya xb yb = segment_cells xa ya xb yb := by
  rw [line_cells_eq_map, segment_cells]
  apply List.map_congr_left
  intro k hk
  have hk' : k ≤ chebyshev xa ya xb yb := by
    have := List.mem_range.mp hk
    omega
  obtain ⟨kx, ky, hx0, hxD, hy0, hyD, hmax, _, hc⟩ := line_iterate xa ya xb yb k hk'
  rw [hc]
  simp only [Cursor.cell, Prod.mk.injEq]
  rcases hax with hrow | hcol
  · subst hrow
    have hky : ky = 0 := by simp [c_abs] at hyD; omega
    have hkx : kx = k := by rw [hky] at hmax; omega
    rw [sign_mul_of_le xa xb kx hx0 hxD, hky, hkx]
    simp
  · subst hcol
    have hkx : kx = 0 := by simp [c_abs] at hxD; omega
    have hky : ky = k := by rw [hkx] at hmax; omega
    rw [sign_mul_of_le ya yb ky hy0 hyD, hkx, hky]
    simp

theorem mem_segment_row (xa xb y : Int) (p : Int × Int) :
    p ∈ segment_cells xa y xb y ↔ p.2 = y ∧ ((xa ≤ p.1 ∧ p.1 ≤ xb) ∨ (xb ≤ p.1 ∧ p.1 ≤ xa)) := by
  obtain ⟨px, py⟩ := p
  simp only [segment_cells, List.mem_map, List.mem_range, Prod.mk.injEq, sub_self,
    Int.natAbs_zero, Int.sign_zero, zero_mul, add_zero]
  rcases lt_trichotomy xa xb with hlt | heq | hgt
  · rw [Int.sign_eq_one_of_pos (by omega)]
    constructor
    · rintro ⟨k, hk, rfl, rfl⟩
      exact ⟨rfl, by omega⟩
    · rintro ⟨rfl, h1⟩
      exact ⟨(px - xa).toNat, by omega, by omega, rfl⟩
  · subst heq
    constructor
    · rintro ⟨k, hk, rfl, rfl⟩
      simp
    · rintro ⟨rfl, h1⟩
      exact ⟨0, by simp, by omega, rfl⟩
  · rw [Int.sign_eq_neg_one_of_neg (by omega)]
    constructor
    · rintro ⟨k, hk, rfl, rfl⟩
      exact ⟨rfl, by omega⟩
    · rintro ⟨rfl, h1⟩
      exact ⟨(xa - px).toNat, by omega, by omega, rfl⟩

theorem mem_segment_col (x ya yb : Int) (p : Int × Int) :
    p ∈ segment_cells x ya x yb ↔ p.1 = x ∧ ((ya ≤ p.2 ∧ p.2 ≤ yb) ∨ (yb ≤ p.2 ∧ p.2 ≤ ya)) := by
  obtain ⟨px, py⟩ := p
  simp only [segment_cells, List.mem_map, List.mem_range, Prod.mk.injEq, sub_self,
    Int.natAbs_zero, Int.sign_zero, zero_mul, add_zero]
  rcases lt_trichotomy ya yb with hlt | heq | hgt
  · rw [Int.sign_eq_one_of_pos (by omega)]
    constructor
    · rintro ⟨k, hk, rfl, rfl⟩
      exact ⟨rfl, by omega⟩
    · rintro ⟨rfl, h1⟩
      exact ⟨(py - ya).toNat, by omega, rfl, by omega⟩
  · subst heq
    constructor
    · rintro ⟨k, hk, rfl, rfl⟩
      simp
    · rintro ⟨rfl, h1⟩
      exact ⟨0, by simp, rfl, by omega⟩
  · rw [Int.sign_eq_neg_one_of_neg (by omega)]
    constructor
    · rintro ⟨k, hk, rfl, rfl⟩
      exact ⟨rfl, by omega⟩
    · rintro ⟨rfl, h1⟩
      exact ⟨(ya - py).toNat, by omega, rfl, by omega⟩

theorem segment_cells_nodup (xa ya xb yb : Int) (hax : ya = yb ∨ xa = xb) :
    (segment_cells xa ya xb yb).Nodup := by
  unfold segment_cells
  refine List.Nodup.map_on ?_ (List.nodup_range _)
  intro k hk j hj he
  rw [List.mem_range] at hk hj
  simp only [Prod.mk.injEq] at he
  obtain ⟨he1, he2⟩ := he
  rcases hax with hrow | hcol
  · subst hrow
    simp only [sub_self, Int.natAbs_zero] at hk hj
    rcases lt_trichotomy xa xb with hlt | heq | hgt
    · rw [Int.sign_eq_one_of_pos (by omega)] at he1; omega
    · subst heq; simp at hk hj; omega
    · rw [Int.sign_eq_neg_one_of_neg (by omega)] at he1; omega
  · subst hcol
    simp only [sub_self, Int.natAbs_zero] at hk hj
    rcases lt_trichotomy ya yb with hlt | heq | hgt
    · rw [Int.sign_eq_one_of_pos (by omega)] at he2; omega
    · subst heq; simp at hk hj; omega
    · rw [Int.sign_eq_neg_one_of_neg (by omega)] at he2; omega

theorem segment_cells_reverse (xa ya xb yb : Int) (hax : ya = yb ∨ xa = xb) :
    ∀ p ∈ segment_cells xb yb xa ya, p ∈ segment_cells xa ya xb yb := by
  intro p hp
  rcases hax with hrow | hcol
  · subst hrow
    rw [mem_segment_row] at hp ⊢
    exact ⟨hp.1, by omega⟩
  · subst hcol
    rw [mem_segment_col] at hp ⊢
    exact ⟨hp.1, by omega⟩

theorem segment_cells_in_grid (w h xa ya xb yb : Int) (hax : ya = yb ∨ xa = xb)
    (hga : in_grid w h xa ya) (hgb : in_grid w h xb yb) :
    ∀ p ∈ segment_cells xa ya xb yb, in_grid w h p.1 p.2 := by
  intro p hp
  unfold in_grid at hga hgb ⊢
  rcases hax with hrow | hcol
  · subst hrow
    rw [mem_segment_row] at hp
    omega
  · subst hcol
    rw [mem_segment_col] at hp
    omega

theorem clip_of_in_grid (w h : Int) (l : List (Int × Int))
    (hl : ∀ p ∈ l, in_grid w h p.1 p.2) : clip w h l = l := by
  unfold clip
  rw [List.filter_eq_self]
  intro p hp
  simpa using hl p hp

/-- Draft, single axis-aligned edge: when `v2 = v0` and `v0`, `v1` share a row or a
column and lie inside the grid, the walk returns having written exactly the
integer points of the segment from `v0` to `v1`, in that order; the back edge and
the zero-length edge add nothing, and the count (rows written, and the running
index) is `max(|x1-x0|, |y1-y0|) + 1`. -/
theorem edge_walk_axis_aligned (fuel : Nat) (x0 y0 x1 y1 : Int) (z0 z1 z2 : ℚ) (w h : Int)
    (hax : y0 = y1 ∨ x0 = x1) (hg0 : in_grid w h x0 y0) (hg1 : in_grid w h x1 y1)
    (hf : walk_fuel x0 y0 x1 y1 x0 y0 < fuel) :
    ∃ r, edge_walk fuel x0 y0 x1 y1 x0 y0 z0 z1 z2 w h = some r ∧
      coords r.out = segment_cells x0 y0 x1 y1 ∧
      r.out.length = max (x1 - x0).natAbs (y1 - y0).natAbs + 1 ∧
      r.i = ((max (x1 - x0).natAbs (y1 - y0).natAbs + 1 : Nat) : Int) := by
  have hinv := walk_result_inv x0 y0 x1 y1 x0 y0 z0 z1 z2 w h
  have hax' : y1 = y0 ∨ x1 = x0 := hax.imp Eq.symm Eq.symm
  have hA := segment_cells_in_grid w h x0 y0 x1 y1 hax hg0 hg1
  have hcoords : coords (walk_result x0 y0 x1 y1 x0 y0 z0 z1 z2 w h).out
      = segment_cells x0 y0 x1 y1 := by
    rw [walk_result_coords, walk_cells, line_cells_axis x0 y0 x1 y1 hax,
      line_cells_axis x1 y1 x0 y0 hax', line_cells_axis x0 y0 x0 y0 (Or.inl rfl)]
    unfold clip
    rw [List.append_assoc, List.filter_append]
    change keep_first (clip w h (segment_cells x0 y0 x1 y1) ++ clip w h _) = _
    rw [clip_of_in_grid w h _ hA, keep_first_append_of_subset,
      keep_first_of_nodup _ (segment_cells_nodup x0 y0 x1 y1 hax)]
    intro a ha
    rw [mem_clip, List.mem_append] at ha
    rcases ha.1 with hb | hc
    · exact segment_cells_reverse x0 y0 x1 y1 hax a hb
    · have : a = (x0, y0) := by simpa [segment_cells] using hc
      rw [this]
      obtain ⟨tl, htl⟩ := line_cells_head x0 y0 x1 y1
      rw [← line_cells_axis x0 y0 x1 y1 hax, htl]
      exact List.mem_cons_self _ _
  have hlen : (walk_result x0 y0 x1 y1 x0 y0 z0 z1 z2 w h).out.length
      = max (x1 - x0).natAbs (y1 - y0).natAbs + 1 := by
    have := congrArg List.length hcoords
    simpa [coords, segment_cells] using this
  refine ⟨_, edge_walk_eq fuel x0 y0 x1 y1 x0 y0 z0 z1 z2 w h hf, hcoords, hlen, ?_⟩
  rw [hinv.index, hlen]

theorem edge_walk_axis_aligned_witness :
    ((0 : Int) = 0 ∨ (0 : Int) = 4) ∧ in_grid 10 10 0 0 ∧ in_grid 10 10 4 0 ∧
      walk_fuel 0 0 4 0 0 0 < 5 ∧
      ∃ r, edge_walk 5 0 0 4 0 0 0 0 4 0 10 10 = some r ∧
        coords r.out = segment_cells 0 0 4 0 ∧
        r.out.length = max ((4 : Int) - 0).natAbs ((0 : Int) - 0).natAbs + 1 ∧
        r.i = ((max ((4 : Int) - 0).natAbs ((0 : Int) - 0).natAbs + 1 : Nat) : Int) :=
  ⟨by decide, by decide, by decide, by decide,
    edge_walk_axis_aligned 5 0 0 4 0 0 4 0 10 10 (by decide) (by decide) (by decide)
      (by decide)⟩

/-! ## Shape of the path -/

theorem line_cells_get (xa ya xb yb : Int) (k : Nat) (hk : k ≤ chebyshev xa ya xb yb) :
    (line_cells xa ya xb yb)[k]? = some (line_cursor xa ya xb yb k).cell := by
  rw [line_cells_eq_map, List.getElem?_map, List.getElem?_range (by omega)]
  rfl

theorem mem_line_cells (xa ya xb yb : Int) (p : Int × Int) :
    p ∈ line_cells xa ya xb yb ↔
      ∃ k, k ≤ chebyshev xa ya xb yb ∧ (line_cursor xa ya xb yb k).cell = p := by
  rw [line_cells_eq_map, List.mem_map]
  constructor
  · rintro ⟨k, hk, rfl⟩
    exact ⟨k, by have := List.mem_range.mp hk; omega, rfl⟩
  · rintro ⟨k, hk, rfl⟩
    exact ⟨k, List.mem_range.mpr (by omega), rfl⟩

/-- Position of the cursor after `k ≤ chebyshev` advances, in unit moves per axis. -/
theorem line_cursor_cell (xa ya xb yb : Int) (k : Nat) (hk : k ≤ chebyshev xa ya xb yb) :
    ∃ kx ky : Int, 0 ≤ kx ∧ kx ≤ c_abs (xb - xa) ∧ 0 ≤ ky ∧ ky ≤ c_abs (yb - ya) ∧
      max kx ky = k ∧
      (line_cursor xa ya xb yb k).cell
        = (xa + (if xa < xb then 1 else -1) * kx, ya + (if ya < yb then 1 else -1) * ky) := by
  obtain ⟨kx, ky, h1, h2, h3, h4, h5, _, hc⟩ := line_iterate xa ya xb yb k hk
  refine ⟨kx, ky, h1, h2, h3, h4, h5, ?_⟩
  unfold line_cursor
  rw [hc]
  rfl

theorem line_cursor_inj (xa ya xb yb : Int) (j k : Nat) (hj : j ≤ chebyshev xa ya xb yb)
    (hk : k ≤ chebyshev xa ya xb yb)
    (he : (line_cursor xa ya xb yb j).cell = (line_cursor xa ya xb yb k).cell) : j = k := by
  obtain ⟨jx, jy, _, _, _, _, hmj, hcj⟩ := line_cursor_cell xa ya xb yb j hj
  obtain ⟨kx, ky, _, _, _, _, hmk, hck⟩ := line_cursor_cell xa ya xb yb k hk
  rw [hcj, hck, Prod.mk.injEq] at he
  obtain ⟨hx, hy⟩ := he
  have h1 : jx = kx := by split_ifs at hx <;> omega
  have h2 : jy = ky := by split_ifs at hy <;> omega
  rw [h1, h2, hmk] at hmj
  exact_mod_cast hmj.symm

theorem line_cells_nodup (xa ya xb yb : Int) : (line_cells xa ya xb yb).Nodup := by
  rw [line_cells_eq_map]
  refine List.Nodup.map_on ?_ (List.nodup_range _)
  intro j hj k hk he
  rw [List.mem_range] at hj hk
  exact line_cursor_inj xa ya xb yb j k (by omega) (by omega) he

theorem advance_moves (dx dy sx sy : Int) (c : Cursor) :
    ((advance dx dy sx sy c).x0 = c.x0 ∨ (advance dx dy sx sy c).x0 = c.x0 + sx) ∧
      ((advance dx dy sx sy c).y0 = c.y0 ∨ (advance dx dy sx sy c).y0 = c.y0 + sy) := by
  unfold advance
  dsimp only
  split_ifs <;> simp

theorem line_cursor_succ (xa ya xb yb : Int) (k : Nat) :
    line_cursor xa ya xb yb (k + 1)
      = advance (c_abs (xb - xa)) (-c_abs (yb - ya)) (if xa < xb then 1 else -1)
          (if ya < yb then 1 else -1) (line_cursor xa ya xb yb k) := by
  unfold line_cursor
  rw [Function.iterate_succ_apply']

/-- Draft, connected path: given fuel, the call returns having stood on the cells
`line_cells`; from each of them to the next, x changes by 0 or `sx` and y by 0 or
`sy` (the signs of lines 11 and 12), the two cells differ, so they are
8-neighbours; and no cell occurs twice on the path. -/
theorem bresenhams_line_connected (fuel : Nat) (xa ya : Int) (z0 : ℚ) (xb yb : Int) (z1 : ℚ)
    (s : Walk) (w h : Int) (hf : chebyshev xa ya xb yb < fuel) :
    ∃ r, bresenhams_line fuel xa ya z0 xb yb z1 s w h = some r ∧
      r.visited = s.visited ++ line_cells xa ya xb yb ∧
      (∀ k, k < max (xb - xa).natAbs (yb - ya).natAbs →
        ∃ p q, (line_cells xa ya xb yb)[k]? = some p ∧
          (line_cells xa ya xb yb)[k + 1]? = some q ∧
          (q.1 = p.1 ∨ q.1 = p.1 + (if xa < xb then 1 else -1)) ∧
          (q.2 = p.2 ∨ q.2 = p.2 + (if ya < yb then 1 else -1)) ∧
          q ≠ p ∧ (q.1 - p.1).natAbs ≤ 1 ∧ (q.2 - p.2).natAbs ≤ 1) ∧
      (line_cells xa ya xb yb).Nodup := by
  refine ⟨_, by rw [bresenhams_line_eq, if_pos hf], visit_all_visited _ _ _ _ _ _, ?_,
    line_cells_nodup xa ya xb yb⟩
  intro k hk
  have hk1 : k + 1 ≤ chebyshev xa ya xb yb := hk
  have hk0 : k ≤ chebyshev xa ya xb yb := by omega
  have hmv := advance_moves (c_abs (xb - xa)) (-c_abs (yb - ya)) (if xa < xb then 1 else -1)
    (if ya < yb then 1 else -1) (line_cursor xa ya xb yb k)
  rw [← line_cursor_succ] at hmv
  have hne : (line_cursor xa ya xb yb (k + 1)).cell ≠ (line_cursor xa ya xb yb k).cell := by
    intro he
    have := line_cursor_inj xa ya xb yb (k + 1) k hk1 hk0 he
    omega
  refine ⟨_, _, line_cells_get xa ya xb yb k hk0, line_cells_get xa ya xb yb (k + 1) hk1,
    hmv.1, hmv.2, hne, ?_, ?_⟩
  · simp only [Cursor.cell]
    rcases hmv.1 with h | h
    · rw [h]; simp
    · rw [h]; split_ifs <;> simp
  · simp only [Cursor.cell]
    rcases hmv.2 with h | h
    · rw [h]; simp
    · rw [h]; split_ifs <;> simp

theorem bresenhams_line_connected_witness :
    chebyshev (-2) 1 3 4 < 6 ∧
      ∃ r, bresenhams_line 6 (-2) 1 0 3 4 1 (fresh 4 4) 4 4 = some r ∧
        r.visited = (fresh 4 4).visited ++ line_cells (-2) 1 3 4 ∧
        (∀ k, k < max ((3 : Int) - (-2)).natAbs ((4 : Int) - 1).natAbs →
          ∃ p q, (line_cells (-2) 1 3 4)[k]? = some p ∧
            (line_cells (-2) 1 3 4)[k + 1]? = some q ∧
            (q.1 = p.1 ∨ q.1 = p.1 + (if (-2 : Int) < 3 then 1 else -1)) ∧
            (q.2 = p.2 ∨ q.2 = p.2 + (if (1 : Int) < 4 then 1 else -1)) ∧
            q ≠ p ∧ (q.1 - p.1).natAbs ≤ 1 ∧ (q.2 - p.2).natAbs ≤ 1) ∧
        (line_cells (-2) 1 3 4).Nodup :=
  ⟨by decide, bresenhams_line_connected 6 (-2) 1 0 3 4 1 (fresh 4 4) 4 4 (by decide)⟩

theorem line_cells_bbox (xa ya xb yb : Int) :
    ∀ p ∈ line_cells xa ya xb yb,
      min xa xb ≤ p.1 ∧ p.1 ≤ max xa xb ∧ min ya yb ≤ p.2 ∧ p.2 ≤ max ya yb := by
  intro p hp
  obtain ⟨k, hk, rfl⟩ := (mem_line_cells xa ya xb yb p).mp hp
  obtain ⟨kx, ky, hx0, hxD, hy0, hyD, _, hc⟩ := line_cursor_cell xa ya xb yb k hk
  rw [hc]
  simp only [min_le_iff, le_max_iff]
  unfold c_abs at hxD hyD
  refine ⟨?_, ?_, ?_, ?_⟩
  · split_ifs at hxD ⊢ <;> omega
  · split_ifs at hxD ⊢ <;> omega
  · split_ifs at hyD ⊢ <;> omega
  · split_ifs at hyD ⊢ <;> omega

theorem line_cells_in_grid (w h xa ya xb yb : Int) (hga : in_grid w h xa ya)
    (hgb : in_grid w h xb yb) : ∀ p ∈ line_cells xa ya xb yb, in_grid w h p.1 p.2 := by
  intro p hp
  have hb := line_cells_bbox xa ya xb yb p hp
  simp only [min_le_iff, le_max_iff] at hb
  unfold in_grid at hga hgb ⊢
  omega

/-- Draft, bounding-box containment: every cell that `bresenhams_line` stands on
lies in the bounding box of the two endpoints of its edge; hence, when the three
vertices lie inside the grid, every cell the walk stands on passes the bounds test
of line 18 and none is dropped by it. -/
theorem edge_walk_bounding_box (fuel : Nat) (x0 y0 x1 y1 x2 y2 : Int) (z0 z1 z2 : ℚ)
    (w h : Int) (hf : walk_fuel x0 y0 x1 y1 x2 y2 < fuel) :
    ∃ r, edge_walk fuel x0 y0 x1 y1 x2 y2 z0 z1 z2 w h = some r ∧
      r.visited
        = line_cells x0 y0 x1 y1 ++ line_cells x1 y1 x2 y2 ++ line_cells x2 y2 x0 y0 ∧
      (∀ p ∈ line_cells x0 y0 x1 y1,
        min x0 x1 ≤ p.1 ∧ p.1 ≤ max x0 x1 ∧ min y0 y1 ≤ p.2 ∧ p.2 ≤ max y0 y1) ∧
      (∀ p ∈ line_cells x1 y1 x2 y2,
        min x1 x2 ≤ p.1 ∧ p.1 ≤ max x1 x2 ∧ min y1 y2 ≤ p.2 ∧ p.2 ≤ max y1 y2) ∧
      (∀ p ∈ line_cells x2 y2 x0 y0,
        min x2 x0 ≤ p.1 ∧ p.1 ≤ max x2 x0 ∧ min y2 y0 ≤ p.2 ∧ p.2 ≤ max y2 y0) ∧
      (in_grid w h x0 y0 → in_grid w h x1 y1 → in_grid w h x2 y2 →
        (∀ p ∈ r.visited, in_grid w h p.1 p.2) ∧ clip w h r.visited = r.visited) := by
  refine ⟨_, edge_walk_eq fuel x0 y0 x1 y1 x2 y2 z0 z1 z2 w h hf,
    walk_result_visited x0 y0 x1 y1 x2 y2 z0 z1 z2 w h, line_cells_bbox x0 y0 x1 y1,
    line_cells_bbox x1 y1 x2 y2, line_cells_bbox x2 y2 x0 y0, ?_⟩
  intro hg0 hg1 hg2
  have hall : ∀ p ∈ (walk_result x0 y0 x1 y1 x2 y2 z0 z1 z2 w h).visited,
      in_grid w h p.1 p.2 := by
    intro p hp
    rw [walk_result_visited, walk_cells, List.mem_append, List.mem_append] at hp
    rcases hp with (hp | hp) | hp
    · exact line_cells_in_grid w h x0 y0 x1 y1 hg0 hg1 p hp
    · exact line_cells_in_grid w h x1 y1 x2 y2 hg1 hg2 p hp
    · exact line_cells_in_grid w h x2 y2 x0 y0 hg2 hg0 p hp
  exact ⟨hall, clip_of_in_grid w h _ hall⟩

theorem edge_walk_bounding_box_witness :
    walk_fuel 1 1 7 3 4 8 < 8 ∧
      ∃ r, edge_walk 8 1 1 7 3 4 8 1 2 3 10 10 = some r ∧
        r.visited = line_cells 1 1 7 3 ++ line_cells 7 3 4 8 ++ line_cells 4 8 1 1 ∧
        (∀ p ∈ line_cells 1 1 7 3,
          min 1 7 ≤ p.1 ∧ p.1 ≤ max 1 7 ∧ min 1 3 ≤ p.2 ∧ p.2 ≤ max 1 3) ∧
        (∀ p ∈ line_cells 7 3 4 8,
          min 7 4 ≤ p.1 ∧ p.1 ≤ max 7 4 ∧ min 3 8 ≤ p.2 ∧ p.2 ≤ max 3 8) ∧
        (∀ p ∈ line_cells 4 8 1 1,
          min 4 1 ≤ p.1 ∧ p.1 ≤ max 4 1 ∧ min 8 1 ≤ p.2 ∧ p.2 ≤ max 8 1) ∧
        (in_grid 10 10 1 1 → in_grid 10 10 7 3 → in_grid 10 10 4 8 →
          (∀ p ∈ r.visited, in_grid 10 10 p.1 p.2) ∧
            clip 10 10 r.visited = r.visited) :=
  ⟨by decide, edge_walk_bounding_box 8 1 1 7 3 4 8 1 2 3 10 10 (by decide)⟩

theorem line_cells_length (xa ya xb yb : Int) :
    (line_cells xa ya xb yb).length = chebyshev xa ya xb yb + 1 := by
  simp only [line_cells, line_path, List.length_map, path_length]

theorem walk_result_steps (x0 y0 x1 y1 x2 y2 : Int) (z0 z1 z2 : ℚ) (w h : Int) :
    steps_taken (walk_result x0 y0 x1 y1 x2 y2 z0 z1 z2 w h)
      = chebyshev x0 y0 x1 y1 + chebyshev x1 y1 x2 y2 + chebyshev x2 y2 x0 y0 := by
  unfold steps_taken
  rw [walk_result_visited, walk_cells, List.length_append, List.length_append,
    line_cells_length, line_cells_length, line_cells_length]
  omega

theorem chebyshev_lt_of_in_grid (w h xa ya xb yb : Int) (hga : in_grid w h xa ya)
    (hgb : in_grid w h xb yb) : ((chebyshev xa ya xb yb : Nat) : Int) + 1 ≤ max w h := by
  have h1 := le_max_left w h
  have h2 := le_max_right w h
  generalize max w h = m at h1 h2 ⊢
  rw [chebyshev_cast]
  unfold in_grid at hga hgb
  have hx : c_abs (xb - xa) + 1 ≤ m := by unfold c_abs; split_ifs <;> omega
  have hy : c_abs (yb - ya) + 1 ≤ m := by unfold c_abs; split_ifs <;> omega
  rcases le_total (c_abs (xb - xa)) (c_abs (yb - ya)) with hle | hle
  · rw [max_eq_right hle]; exact hy
  · rw [max_eq_left hle]; exact hx

/-- Draft: on a 1 x 1 grid with `v0 = (0,0)`, `v1 = (4,0)`,
`v2 = (0,0)` the three calls advance 8 times in all, more than
`3 * max(w, h) = 3`. -/
theorem step_bound_exceeded :
    ∃ r, edge_walk 5 0 0 4 0 0 0 0 0 0 1 1 = some r ∧
      steps_taken r = 8 ∧ ¬ (steps_taken r : Int) ≤ 3 * max 1 1 :=
  ⟨_, edge_walk_eq 5 0 0 4 0 0 0 0 0 0 1 1 (by decide), by decide, by decide⟩

/-- Draft: the three calls advance `max(|dx|, |dy|)` times per edge, the sum
over the three edges in all, whatever the grid; when `w > 0`, `h > 0` and the three
vertices lie inside the grid, that total is at most `3 * max(w, h)`. -/
theorem edge_walk_step_bound (fuel : Nat) (x0 y0 x1 y1 x2 y2 : Int) (z0 z1 z2 : ℚ)
    (w h : Int) (_hw : 0 < w) (_hh : 0 < h)
    (hg0 : in_grid w h x0 y0) (hg1 : in_grid w h x1 y1) (hg2 : in_grid w h x2 y2)
    (hf : walk_fuel x0 y0 x1 y1 x2 y2 < fuel) :
    ∃ r, edge_walk fuel x0 y0 x1 y1 x2 y2 z0 z1 z2 w h = some r ∧
      steps_taken r
        = max (x1 - x0).natAbs (y1 - y0).natAbs + max (x2 - x1).natAbs (y2 - y1).natAbs
          + max (x0 - x2).natAbs (y0 - y2).natAbs ∧
      (steps_taken r : Int) ≤ 3 * max w h := by
  refine ⟨_, edge_walk_eq fuel x0 y0 x1 y1 x2 y2 z0 z1 z2 w h hf,
    walk_result_steps x0 y0 x1 y1 x2 y2 z0 z1 z2 w h, ?_⟩
  rw [walk_result_steps]
  have a := chebyshev_lt_of_in_grid w h x0 y0 x1 y1 hg0 hg1
  have b := chebyshev_lt_of_in_grid w h x1 y1 x2 y2 hg1 hg2
  have c := chebyshev_lt_of_in_grid w h x2 y2 x0 y0 hg2 hg0
  push_cast
  omega

theorem edge_walk_step_bound_witness :
    (0 : Int) < 10 ∧ (0 : Int) < 10 ∧ in_grid 10 10 1 1 ∧ in_grid 10 10 7 3 ∧
      in_grid 10 10 4 8 ∧ walk_fuel 1 1 7 3 4 8 < 8 ∧
      ∃ r, edge_walk 8 1 1 7 3 4 8 1 2 3 10 10 = some r ∧
        steps_taken r
          = max ((7 : Int) - 1).natAbs ((3 : Int) - 1).natAbs
            + max ((4 : Int) - 7).natAbs ((8 : Int) - 3).natAbs
            + max ((1 : Int) - 4).natAbs ((1 : Int) - 8).natAbs ∧
        (steps_taken r : Int) ≤ 3 * max 10 10 :=
  ⟨by decide, by decide, by decide, by decide, by decide, by decide,
    edge_walk_step_bound 8 1 1 7 3 4 8 1 2 3 10 10 (by decide) (by decide) (by decide)
      (by decide) (by decide) (by decide)⟩

/-! ## Sizes -/

theorem keep_first_length_le (l : List (Int × Int)) : (keep_first l).length ≤ l.length := by
  induction l using List.reverseRecOn with
  | nil => simp [keep_first]
  | append_singleton l b ih =>
    rw [keep_first_concat]
    split_ifs <;> simp <;> omega

theorem clip_append (w h : Int) (l m : List (Int × Int)) :
    clip w h (l ++ m) = clip w h l ++ clip w h m := by
  simp [clip, List.filter_append]

/-- A duplicate-free list of cells on which one coordinate `f` is injective has at
most `bound` members whose coordinate lies in `[0, bound)`. -/
theorem clip_length_le_of_inj (w h bound : Int) (l : List (Int × Int)) (f : Int × Int → Int)
    (hl : l.Nodup) (hinj : ∀ p ∈ l, ∀ q ∈ l, f p = f q → p = q)
    (hb : ∀ p ∈ l, in_grid w h p.1 p.2 → 0 ≤ f p ∧ f p < bound) :
    (clip w h l).length ≤ bound.toNat := by
  have hn : ((clip w h l).map fun p => (f p, (0 : Int))).Nodup := by
    refine List.Nodup.map_on ?_ (hl.filter _)
    intro p hp q hq he
    rw [mem_clip] at hp hq
    simp only [Prod.mk.injEq, and_true] at he
    exact hinj p hp.1 q hq.1 he
  have hg : ∀ p ∈ (clip w h l).map (fun p => (f p, (0 : Int))), in_grid bound 1 p.1 p.2 := by
    intro p hp
    rw [List.mem_map] at hp
    obtain ⟨q, hq, rfl⟩ := hp
    rw [mem_clip] at hq
    have := hb q hq.1 hq.2
    unfold in_grid
    omega
  have := coords_length_le bound 1 _ hn hg
  simpa using this

theorem line_cursor_xmajor (xa ya xb yb : Int) (hle : c_abs (yb - ya) ≤ c_abs (xb - xa))
    (k : Nat) (hk : k ≤ chebyshev xa ya xb yb) :
    (line_cursor xa ya xb yb k).cell.1 = xa + (if xa < xb then 1 else -1) * (k : Int) := by
  have hk' : (k : Int) ≤ c_abs (xb - xa) := by
    have : (k : Int) ≤ (chebyshev xa ya xb yb : Nat) := by exact_mod_cast hk
    rwa [chebyshev_cast, max_eq_left hle] at this
  obtain ⟨ky, _, _, _, _, hc, _, _⟩ :=
    xmajor_iterate xa ya (if xa < xb then 1 else -1) (if ya < yb then 1 else -1) _ _
      (c_abs_nonneg (yb - ya)) hle k hk'
  unfold line_cursor
  rw [hc]
  rfl

theorem line_cursor_ymajor (xa ya xb yb : Int) (hle : c_abs (xb - xa) ≤ c_abs (yb - ya))
    (k : Nat) (hk : k ≤ chebyshev xa ya xb yb) :
    (line_cursor xa ya xb yb k).cell.2 = ya + (if ya < yb then 1 else -1) * (k : Int) := by
  have hk' : (k : Int) ≤ c_abs (yb - ya) := by
    have : (k : Int) ≤ (chebyshev xa ya xb yb : Nat) := by exact_mod_cast hk
    rwa [chebyshev_cast, max_eq_right hle] at this
  obtain ⟨kx, _, _, _, _, hc, _, _⟩ :=
    ymajor_iterate xa ya (if xa < xb then 1 else -1) (if ya < yb then 1 else -1) _ _
      (c_abs_nonneg (xb - xa)) hle k hk'
  unfold line_cursor
  rw [hc]
  rfl

/-- One edge has at most `max(w, h)` cells inside the grid: along its longer axis
every cell has a coordinate of its own. -/
theorem line_clip_length_le (w h xa ya xb yb : Int) :
    (clip w h (line_cells xa ya xb yb)).length ≤ (max w h).toNat := by
  rcases le_total (c_abs (yb - ya)) (c_abs (xb - xa)) with hle | hle
  · have hlen := clip_length_le_of_inj w h w (line_cells xa ya xb yb) Prod.fst
      (line_cells_nodup xa ya xb yb)
      (by
        intro p hp q hq he
        obtain ⟨j, hj, rfl⟩ := (mem_line_cells xa ya xb yb p).mp hp
        obtain ⟨k, hk, rfl⟩ := (mem_line_cells xa ya xb yb q).mp hq
        rw [line_cursor_xmajor xa ya xb yb hle j hj,
          line_cursor_xmajor xa ya xb yb hle k hk] at he
        have : j = k := by split_ifs at he <;> omega
        rw [this])
      (by
        intro p _ hg
        unfold in_grid at hg
        exact ⟨hg.1, hg.2.1⟩)
    have := le_max_left w h
    omega
  · have hlen := clip_length_le_of_inj w h h (line_cells xa ya xb yb) Prod.snd
      (line_cells_nodup xa ya xb yb)
      (by
        intro p hp q hq he
        obtain ⟨j, hj, rfl⟩ := (mem_line_cells xa ya xb yb p).mp hp
        obtain ⟨k, hk, rfl⟩ := (mem_line_cells xa ya xb yb q).mp hq
        rw [line_cursor_ymajor xa ya xb yb hle j hj,
          line_cursor_ymajor xa ya xb yb hle k hk] at he
        have : j = k := by split_ifs at he <;> omega
        rw [this])
      (by
        intro p _ hg
        unfold in_grid at hg
        exact ⟨hg.2.2.1, hg.2.2.2⟩)
    have := le_max_right w h
    omega

/-- Draft, output size bound: for a grid of positive width and height and any three
integer vertices, however far outside the grid, each edge has at most `max(w, h)`
cells inside the grid, the walk returns having written at most `3 * max(w, h)`
rows, and every row index it used is below `3 * max(w, h)`. -/
theorem edge_walk_output_bound (fuel : Nat) (x0 y0 x1 y1 x2 y2 : Int) (z0 z1 z2 : ℚ)
    (w h : Int) (hw : 0 < w) (_hh : 0 < h) (hf : walk_fuel x0 y0 x1 y1 x2 y2 < fuel) :
    ∃ r, edge_walk fuel x0 y0 x1 y1 x2 y2 z0 z1 z2 w h = some r ∧
      ((clip w h (line_cells x0 y0 x1 y1)).length : Int) ≤ max w h ∧
      ((clip w h (line_cells x1 y1 x2 y2)).length : Int) ≤ max w h ∧
      ((clip w h (line_cells x2 y2 x0 y0)).length : Int) ≤ max w h ∧
      (r.out.length : Int) ≤ 3 * max w h ∧
      ∀ p ∈ r.out, 0 ≤ p.row ∧ p.row < 3 * max w h := by
  have hinv := walk_result_inv x0 y0 x1 y1 x2 y2 z0 z1 z2 w h
  have a := line_clip_length_le w h x0 y0 x1 y1
  have b := line_clip_length_le w h x1 y1 x2 y2
  have c := line_clip_length_le w h x2 y2 x0 y0
  have hm : 0 < max w h := lt_of_lt_of_le hw (le_max_left w h)
  have hlen : (walk_result x0 y0 x1 y1 x2 y2 z0 z1 z2 w h).out.length
      ≤ (clip w h (line_cells x0 y0 x1 y1)).length + (clip w h (line_cells x1 y1 x2 y2)).length
        + (clip w h (line_cells x2 y2 x0 y0)).length := by
    have h1 := congrArg List.length (walk_result_coords x0 y0 x1 y1 x2 y2 z0 z1 z2 w h)
    have h2 := keep_first_length_le (clip w h (walk_cells x0 y0 x1 y1 x2 y2))
    rw [walk_cells, clip_append, clip_append, List.length_append, List.length_append] at h2
    rw [walk_cells, clip_append, clip_append] at h1
    simp only [coords, List.length_map] at h1
    omega
  have htot : ((walk_result x0 y0 x1 y1 x2 y2 z0 z1 z2 w h).out.length : Int)
      ≤ 3 * max w h := by omega
  refine ⟨_, edge_walk_eq fuel x0 y0 x1 y1 x2 y2 z0 z1 z2 w h hf, by omega, by omega,
    by omega, htot, ?_⟩
  intro p hp
  have := inv_row_lt w h _ hinv p hp
  exact ⟨this.1, lt_of_lt_of_le this.2 htot⟩

theorem edge_walk_output_bound_witness :
    (0 : Int) < 10 ∧ (0 : Int) < 10 ∧ walk_fuel (-50) (-50) 60 70 5 (-40) < 200 ∧
      ∃ r, edge_walk 200 (-50) (-50) 60 70 5 (-40) 1 2 3 10 10 = some r ∧
        ((clip 10 10 (line_cells (-50) (-50) 60 70)).length : Int) ≤ max 10 10 ∧
        ((clip 10 10 (line_cells 60 70 5 (-40))).length : Int) ≤ max 10 10 ∧
        ((clip 10 10 (line_cells 5 (-40) (-50) (-50))).length : Int) ≤ max 10 10 ∧
        (r.out.length : Int) ≤ 3 * max 10 10 ∧
        ∀ p ∈ r.out, 0 ≤ p.row ∧ p.row < 3 * max 10 10 :=
  ⟨by decide, by decide, by decide,
    edge_walk_output_bound 200 (-50) (-50) 60 70 5 (-40) 1 2 3 10 10 (by decide) (by decide)
      (by decide)⟩

/-! ## Grid validation, truncation and buffer indices -/

theorem clip_eq_nil_of_empty_grid (w h : Int) (hbad : w ≤ 0 ∨ h ≤ 0) (l : List (Int × Int)) :
    clip w h l = [] := by
  unfold clip
  rw [List.filter_eq_nil_iff]
  intro p _
  simp only [decide_eq_true_eq]
  unfold in_grid
  omega

/-- Draft: `edge_walk` has no capacity input and no truncation output and
never truncates: for every input it writes one row for each unique in-bounds cell
of the three edges, and its running index ends at that number. -/
theorem edge_walk_never_truncates (fuel : Nat) (x0 y0 x1 y1 x2 y2 : Int) (z0 z1 z2 : ℚ)
    (w h : Int) (hf : walk_fuel x0 y0 x1 y1 x2 y2 < fuel) :
    ∃ r, edge_walk fuel x0 y0 x1 y1 x2 y2 z0 z1 z2 w h = some r ∧
      r.out.length = (keep_first (clip w h (walk_cells x0 y0 x1 y1 x2 y2))).length ∧
      r.i = ((keep_first (clip w h (walk_cells x0 y0 x1 y1 x2 y2))).length : Int) := by
  have hinv := walk_result_inv x0 y0 x1 y1 x2 y2 z0 z1 z2 w h
  have hlen : (walk_result x0 y0 x1 y1 x2 y2 z0 z1 z2 w h).out.length
      = (keep_first (clip w h (walk_cells x0 y0 x1 y1 x2 y2))).length := by
    have := congrArg List.length (walk_result_coords x0 y0 x1 y1 x2 y2 z0 z1 z2 w h)
    simpa [coords] using this
  refine ⟨_, edge_walk_eq fuel x0 y0 x1 y1 x2 y2 z0 z1 z2 w h hf, hlen, ?_⟩
  rw [hinv.index, hlen]

theorem edge_walk_never_truncates_witness :
    walk_fuel 0 0 4 0 0 0 < 5 ∧
      ∃ r, edge_walk 5 0 0 4 0 0 0 0 4 0 10 10 = some r ∧
        r.out.length = (keep_first (clip 10 10 (walk_cells 0 0 4 0 0 0))).length ∧
        r.i = ((keep_first (clip 10 10 (walk_cells 0 0 4 0 0 0))).length : Int) :=
  ⟨by decide, edge_walk_never_truncates 5 0 0 4 0 0 0 0 4 0 10 10 (by decide)⟩

theorem visit_accesses_safe (w h : Int) (c : Cursor) (s : Walk) :
    ∀ k ∈ visit_accesses w h c s, 0 ≤ k ∧ k < w * h := by
  intro k hk
  unfold visit_accesses at hk
  by_cases hg : in_grid w h c.x0 c.y0
  · have hlt := cell_index_lt w h _ _ hg
    have hpos : 0 ≤ c.x0 + c.y0 * w := by
      obtain ⟨hx0, hxw, hy0, _⟩ := hg
      have : (0 : Int) ≤ c.y0 * w := mul_nonneg hy0 (by omega)
      omega
    have hk' : k = c.x0 + c.y0 * w := by
      rw [if_pos hg] at hk
      split_ifs at hk <;> simpa using hk
    unfold cell_index at hlt
    rw [hk']
    omega
  · rw [if_neg hg] at hk
    simp at hk

theorem accesses_all_safe (z0 z1 : ℚ) (w h : Int) (cs : List Cursor) (s : Walk) :
    ∀ k ∈ accesses_all z0 z1 w h cs s, 0 ≤ k ∧ k < w * h := by
  induction cs generalizing s with
  | nil => intro k hk; simp [accesses_all] at hk
  | cons c cs ih =>
    intro k hk
    rw [accesses_all, List.mem_append] at hk
    rcases hk with hk | hk
    · exact visit_accesses_safe w h c s k hk
    · exact ih _ k hk

/-- Draft, visited-buffer index safety: for a grid of positive width and height and
any three integer vertices, every index `x0 + y0 * w` at which the three calls read
or write `edge_buf` lies in `[0, w * h)`, the size of the buffer allocated on line
69; two cells inside the grid with the same index are the same cell; and at a cell
outside the grid `edge_buf` is not touched at all. -/
theorem edge_buf_index_safe (x0 y0 x1 y1 x2 y2 : Int) (z0 z1 z2 : ℚ) (w h : Int)
    (_hw : 0 < w) (_hh : 0 < h) :
    (∀ k ∈ walk_accesses x0 y0 x1 y1 x2 y2 z0 z1 z2 w h, 0 ≤ k ∧ k < w * h) ∧
      ((fresh w h).edge_buf.length : Int) = w * h ∧
      (∀ x y x' y', in_grid w h x y → in_grid w h x' y' →
        x + y * w = x' + y' * w → x = x' ∧ y = y') ∧
      (∀ (c : Cursor) (s : Walk), ¬ in_grid w h c.x0 c.y0 → visit_accesses w h c s = []) := by
  refine ⟨?_, ?_, ?_, ?_⟩
  · intro k hk
    rw [walk_accesses, List.mem_append, List.mem_append] at hk
    rcases hk with (hk | hk) | hk <;> exact accesses_all_safe _ _ _ _ _ _ k hk
  · have : 0 < w * h := mul_pos _hw _hh
    simp only [fresh, List.length_replicate]
    omega
  · intro x y x' y' hg hg' he
    exact cell_index_inj w h x y x' y' hg hg' (by unfold cell_index; rw [he])
  · intro c s hg
    unfold visit_accesses
    rw [if_neg hg]

theorem edge_buf_index_safe_witness :
    (0 : Int) < 10 ∧ (0 : Int) < 10 ∧
      (∀ k ∈ walk_accesses (-5) (-5) 3 7 8 2 1 2 3 10 10, 0 ≤ k ∧ k < 10 * 10) ∧
      ((fresh 10 10).edge_buf.length : Int) = 10 * 10 ∧
      (∀ x y x' y', in_grid 10 10 x y → in_grid 10 10 x' y' →
        x + y * 10 = x' + y' * 10 → x = x' ∧ y = y') ∧
      (∀ (c : Cursor) (s : Walk), ¬ in_grid 10 10 c.x0 c.y0 → visit_accesses 10 10 c s = []) :=
  ⟨by decide, by decide,
    edge_buf_index_safe (-5) (-5) 3 7 8 2 1 2 3 10 10 (by decide) (by decide)⟩

/-- Lines 18 to 26 leave `edge_buf` alone or set the one cell whose index is in the
access list of that iteration. -/
theorem visit_writes_at_access (z0 z1 : ℚ) (w h : Int) (c : Cursor) (s : Walk) :
    (visit z0 z1 w h c s).edge_buf = s.edge_buf ∨
      (c.x0 + c.y0 * w ∈ visit_accesses w h c s ∧
        (visit z0 z1 w h c s).edge_buf = s.edge_buf.set (c.x0 + c.y0 * w).toNat 1) := by
  unfold visit visit_accesses
  dsimp only
  by_cases hg : in_grid w h c.x0 c.y0
  · by_cases hb : s.edge_buf.getD (cell_index w c.x0 c.y0) 0 = 0
    · right
      rw [if_pos hg, if_pos hb, if_pos (And.intro hg hb)]
      exact ⟨List.mem_cons_self _ _, rfl⟩
    · left
      rw [if_neg (fun hh => hb hh.2)]
  · left
    rw [if_neg (fun hh => hg hh.1)]

/-- Draft: with `w <= 0` or `h <= 0` the draft walk returns having written no
sample, because no cell passes the bounds test of line 18: the running index stays
0. -/
theorem draft_invalid_grid (fuel : Nat) (x0 y0 x1 y1 x2 y2 : Int) (z0 z1 z2 : ℚ)
    (w h : Int) (hbad : w ≤ 0 ∨ h ≤ 0) (hf : walk_fuel x0 y0 x1 y1 x2 y2 < fuel) :
    ∃ r, edge_walk fuel x0 y0 x1 y1 x2 y2 z0 z1 z2 w h = some r ∧
      r.out = [] ∧ r.i = 0 := by
  have hinv := walk_result_inv x0 y0 x1 y1 x2 y2 z0 z1 z2 w h
  have hout : (walk_result x0 y0 x1 y1 x2 y2 z0 z1 z2 w h).out = [] := by
    have := walk_result_coords x0 y0 x1 y1 x2 y2 z0 z1 z2 w h
    rw [clip_eq_nil_of_empty_grid w h hbad] at this
    simpa [coords, keep_first] using this
  refine ⟨_, edge_walk_eq fuel x0 y0 x1 y1 x2 y2 z0 z1 z2 w h hf, hout, ?_⟩
  rw [hinv.index, hout]
  rfl

end Draft

/-! ## The compiled `edge_walk` and the compiled loop -/

/-- The loop of `src/tge/c_lib/src/edge_walk.c` does not return, whatever the fuel. -/
theorem clib_loop_none (fuel : Nat) (s : CLib.Locals) : CLib.bresenhams_loop fuel s = none := by
  induction fuel generalizing s with
  | zero => rfl
  | succ n ih => exact ih (CLib.body s)

/-- Iterating the empty loop body changes no variable. -/
theorem clib_body_iterate (k : Nat) (s : CLib.Locals) : CLib.body^[k] s = s := by
  induction k with
  | zero => rfl
  | succ n ih => rw [Function.iterate_succ_apply, CLib.body, ih]

/-- C5 fails on the code: for the edge `(0,0,z=0) → (4,0,z=4)` on a 10 x 10 grid the
compiled `edge_walk` stores no cell and no depth, where the claim has the cells
`(0,0)..(4,0)` with depths `0, 1, 2, 3, 4`. -/
theorem compiled_walk_stores_no_depth :
    (edge_walk ⟨0, 0, 4, 0, 0, 0, 0, 4, 0, 10, 10⟩).out.map (fun p => (p.x, p.y, p.z)) = [] ∧
      (edge_walk ⟨0, 0, 4, 0, 0, 0, 0, 4, 0, 10, 10⟩).out.map (fun p => (p.x, p.y, p.z))
        ≠ [(0, 0, 0), (1, 0, 1), (2, 0, 2), (3, 0, 3), (4, 0, 4)] := by
  simp [edge_walk]

/-- C6 fails on the code: for `v0 = (0,0)`, `v1 = (2,0)`, `v2 = (2,2)` on a 10 x 10
grid the compiled `edge_walk` writes no pixel coordinate and stands on no cell,
where the claimed sequence begins with `v0`, the first cell of the first edge. -/
theorem compiled_walk_no_sequence :
    coords (edge_walk ⟨0, 0, 2, 0, 2, 2, 1, 2, 3, 10, 10⟩).out = [] ∧
      (edge_walk ⟨0, 0, 2, 0, 2, 2, 1, 2, 3, 10, 10⟩).visited = [] ∧
      (coords (edge_walk ⟨0, 0, 2, 0, 2, 2, 1, 2, 3, 10, 10⟩).out).head? ≠ some (0, 0) := by
  simp [edge_walk, coords]

/-- C7 fails on the code: for the triangle `(1,1)`, `(7,3)`, `(4,8)`, distinct
vertices inside a 10 x 10 grid, none of the three vertices is among the pixel
coordinates that the compiled `edge_walk` writes. -/
theorem compiled_walk_no_endpoint :
    in_grid 10 10 1 1 ∧ in_grid 10 10 7 3 ∧ in_grid 10 10 4 8 ∧
      (1, 1) ∉ coords (edge_walk ⟨1, 1, 7, 3, 4, 8, 1, 2, 3, 10, 10⟩).out ∧
      (7, 3) ∉ coords (edge_walk ⟨1, 1, 7, 3, 4, 8, 1, 2, 3, 10, 10⟩).out ∧
      (4, 8) ∉ coords (edge_walk ⟨1, 1, 7, 3, 4, 8, 1, 2, 3, 10, 10⟩).out := by
  refine ⟨by decide, by decide, by decide, ?_, ?_, ?_⟩ <;> simp [edge_walk, coords]

/-- C8 fails on the code: for `v0 = (0,0)`, `v1 = (4,0)`, `v2 = (0,0)` on a 10 x 10
grid the compiled `edge_walk` writes no cell and returns 0, where the claim has
the five cells `(0,0)..(4,0)` and the count 5. -/
theorem compiled_walk_no_segment :
    coords (edge_walk ⟨0, 0, 4, 0, 0, 0, 0, 4, 0, 10, 10⟩).out = [] ∧
      coords (edge_walk ⟨0, 0, 4, 0, 0, 0, 0, 4, 0, 10, 10⟩).out
        ≠ [(0, 0), (1, 0), (2, 0), (3, 0), (4, 0)] ∧
      (edge_walk ⟨0, 0, 4, 0, 0, 0, 0, 4, 0, 10, 10⟩).ret = PyResult.int 0 ∧
      (edge_walk ⟨0, 0, 4, 0, 0, 0, 0, 4, 0, 10, 10⟩).ret ≠ PyResult.int 5 := by
  simp [edge_walk, coords]

/-- C9 fails on the code: with the three vertices at `(5,5)` and depths
`(1, 1, 1)` on a 10 x 10 grid the compiled `edge_walk` writes no sample, where the
claim has exactly the sample `(5,5)` with depth 1. -/
theorem compiled_walk_no_point :
    (edge_walk ⟨5, 5, 5, 5, 5, 5, 1, 1, 1, 10, 10⟩).out = [] ∧
      (edge_walk ⟨5, 5, 5, 5, 5, 5, 1, 1, 1, 10, 10⟩).out.length ≠ 1 := by
  simp [edge_walk]

/-- C10 fails on the code: the one `bresenhams_line` outside comments
(`src/tge/c_lib/src/edge_walk.c`) does not return for any endpoints and any fuel,
its loop `while (1) { }` having no `break`; and for `v0 = (0,0)`, `v1 = (4,0)` the
compiled `edge_walk` takes 0 steps, not `max(|4-0|, |0-0|) = 4`, and stands on no
cell, so its last cell is not `(4,0)`. -/
theorem compiled_loop_never_returns (fuel : Nat) (xa ya : Int) (z0 : ℚ) (xb yb : Int)
    (z1 : ℚ) :
    CLib.bresenhams_line fuel xa ya z0 xb yb z1 = none ∧
      (edge_walk ⟨0, 0, 4, 0, 0, 0, 0, 4, 0, 10, 10⟩).steps = 0 ∧
      (edge_walk ⟨0, 0, 4, 0, 0, 0, 0, 4, 0, 10, 10⟩).steps
        ≠ max ((4 : Int) - 0).natAbs ((0 : Int) - 0).natAbs ∧
      (edge_walk ⟨0, 0, 4, 0, 0, 0, 0, 4, 0, 10, 10⟩).visited.getLast? ≠ some (4, 0) :=
  ⟨clib_loop_none fuel _, rfl, by decide, by decide⟩

/-- C12 as stated fails: called with `w = 0` the compiled `edge_walk` returns the
integer 0, not the error return, and that is the object it returns for a 10 x 10
grid; the draft walk likewise returns for `w = 0`. -/
theorem invalid_grid_not_rejected :
    (edge_walk ⟨0, 0, 0, 0, 0, 0, 1, 1, 1, 0, 10⟩).ret ≠ PyResult.null ∧
      (edge_walk ⟨0, 0, 0, 0, 0, 0, 1, 1, 1, 0, 10⟩).ret
        = (edge_walk ⟨0, 0, 0, 0, 0, 0, 1, 1, 1, 10, 10⟩).ret ∧
      (Draft.edge_walk 1 0 0 0 0 0 0 1 1 1 0 10).isSome = true := by
  refine ⟨by simp [edge_walk], rfl, by decide⟩

/-- C12, amended: `edge_walk` does not test `w` or `h`; with `w <= 0` or `h <= 0`
the call does not fail, it completes like any other call (it returns the integer
0, not the error return), and it writes no sample. The same holds of the draft
walk, where no cell passes the bounds test of line 18 and the running index stays
0. -/
theorem edge_walk_invalid_grid (fuel : Nat) (a : Args) (hbad : a.w ≤ 0 ∨ a.h ≤ 0)
    (hf : Draft.walk_fuel a.x0 a.y0 a.x1 a.y1 a.x2 a.y2 < fuel) :
    ((edge_walk a).ret = PyResult.int 0 ∧ (edge_walk a).ret ≠ PyResult.null ∧
        (edge_walk a).out = []) ∧
      ∃ r, Draft.edge_walk fuel a.x0 a.y0 a.x1 a.y1 a.x2 a.y2 a.z0 a.z1 a.z2 a.w a.h = some r ∧
        r.out = [] ∧ r.i = 0 :=
  ⟨⟨rfl, by simp [edge_walk], rfl⟩,
    Draft.draft_invalid_grid fuel a.x0 a.y0 a.x1 a.y1 a.x2 a.y2 a.z0 a.z1 a.z2 a.w a.h hbad hf⟩

theorem edge_walk_invalid_grid_witness :
    ((0 : Int) ≤ 0 ∨ (10 : Int) ≤ 0) ∧ Draft.walk_fuel 0 0 4 0 0 0 < 5 ∧
      (((edge_walk ⟨0, 0, 4, 0, 0, 0, 0, 4, 0, 0, 10⟩).ret = PyResult.int 0 ∧
          (edge_walk ⟨0, 0, 4, 0, 0, 0, 0, 4, 0, 0, 10⟩).ret ≠ PyResult.null ∧
          (edge_walk ⟨0, 0, 4, 0, 0, 0, 0, 4, 0, 0, 10⟩).out = []) ∧
        ∃ r, Draft.edge_walk 5 0 0 4 0 0 0 0 4 0 0 10 = some r ∧ r.out = [] ∧ r.i = 0) :=
  ⟨by decide, by decide,
    edge_walk_invalid_grid 5 ⟨0, 0, 4, 0, 0, 0, 0, 4, 0, 0, 10⟩ (by decide) (by decide)⟩

/-- C13 as stated fails: for `v0 = (0,0)`, `v1 = (4,0)`, `v2 = (0,0)` on a 10 x 10
grid the walk as drafted has 5 unique in-bounds samples, more than a capacity of 3,
yet the compiled `edge_walk` does not report `truncated = true`: it reports no
flag. -/
theorem truncation_not_reported :
    (keep_first (clip 10 10 (Draft.walk_cells 0 0 4 0 0 0))).length = 5 ∧
      (edge_walk ⟨0, 0, 4, 0, 0, 0, 0, 4, 0, 10, 10⟩).truncated = none ∧
      ¬ ((edge_walk ⟨0, 0, 4, 0, 0, 0, 0, 4, 0, 10, 10⟩).truncated = some true ↔
          3 < (keep_first (clip 10 10 (Draft.walk_cells 0 0 4 0 0 0))).length) := by
  have hlen : (keep_first (clip 10 10 (Draft.walk_cells 0 0 4 0 0 0))).length = 5 := by decide
  refine ⟨hlen, rfl, ?_⟩
  rw [hlen]
  simp [edge_walk]

/-- C13, amended: `edge_walk` takes no capacity and reports no truncation flag: for
every argument tuple and every capacity its result carries no `truncated` value,
so `truncated = true` is never reported, and the object returned is the integer 0
whatever the capacity. -/
theorem edge_walk_reports_no_truncation (a : Args) (capacity : Nat) :
    (edge_walk a).truncated = none ∧ (edge_walk a).truncated ≠ some true ∧
      (edge_walk a).ret = PyResult.int 0 ∧ (edge_walk a).out.length ≤ capacity := by
  simp [edge_walk]

/-- C14 fails on the code: in the one `bresenhams_line` outside comments the loop
body is empty, so after any number of iterations the cursor is still on `(xa,ya)`:
no iteration changes x or y, and for `(0,0) → (4,0)` the cell after the first
iteration is the cell before it and is not `(4,0)`; and the compiled `edge_walk`
stands on no cell at all for that edge, so it traces no path to `(4,0)`. -/
theorem compiled_loop_never_moves (k : Nat) (xa ya xb yb : Int) :
    (CLib.body^[k] (CLib.start xa ya xb yb)).x0 = xa ∧
      (CLib.body^[k] (CLib.start xa ya xb yb)).y0 = ya ∧
      CLib.body^[1] (CLib.start 0 0 4 0) = CLib.body^[0] (CLib.start 0 0 4 0) ∧
      ((CLib.body^[1] (CLib.start 0 0 4 0)).x0, (CLib.body^[1] (CLib.start 0 0 4 0)).y0)
        ≠ (4, 0) ∧
      (edge_walk ⟨0, 0, 4, 0, 0, 0, 0, 4, 0, 10, 10⟩).visited = [] ∧
      (4, 0) ∉ (edge_walk ⟨0, 0, 4, 0, 0, 0, 0, 4, 0, 10, 10⟩).visited := by
  rw [clib_body_iterate]
  refine ⟨rfl, rfl, rfl, by decide, rfl, by simp [edge_walk]⟩

end Tge
